import Mathlib

/-!
Verification of `ldap3/utils/dn.py` (python3-ldap DN utilities).

Strings are modelled as `List Char`.  Python exceptions are modelled with an
`Except PyErr` monad: `LDAPInvalidDnError` carries its message, `TypeError`
and `IndexError` model the runtime errors Python itself would raise
(subscripting or concatenating a bound method, indexing an empty string).
Python's `str.find` / `str.rfind` (which return `-1` on failure) are modelled
with `Int`-valued helpers, and `str.strip()` with `pyStrip`.
-/

set_option maxRecDepth 4000
set_option linter.unnecessarySeqFocus false

namespace Ldap3Dn

/-- The exceptions the Python code can raise: `LDAPInvalidDnError(msg)`,
a `TypeError` (e.g. subscripting a bound method), an `IndexError`
(e.g. `''[0]`). -/
inductive PyErr where
  | invalidDn : String → PyErr
  | typeError : PyErr
  | indexError : PyErr
deriving DecidableEq, Repr

deriving instance DecidableEq for Except

/-- The three scanner states `STATE_ANY`, `STATE_ESCAPE`, `STATE_ESCAPE_HEX`. -/
inductive State where
  | any
  | escape
  | escapeHex
deriving DecidableEq, Repr

/-- `string.hexdigits` from the Python standard library. -/
def hexdigits : List Char :=
  String.toList "0123456789abcdefABCDEF"

/-- The character class `'"#+,;<=>\00'` used in `STATE_ANY`. -/
def anySpecials : List Char := ['"', '#', '+', ',', ';', '<', '=', '>', '\x00']

/-- The character class `' "#+,;<=>\\\00'` used in `STATE_ESCAPE`. -/
def escSpecials : List Char :=
  [' ', '"', '#', '+', ',', ';', '<', '=', '>', '\\', '\x00']

/-- The characters allowed in an attribute type:
`'ABCDEFGHIJKLMNOPQRSTUVWXYZabcdefghijklmnopqrstuvwxyz0123456789-'`. -/
def typeChars : List Char :=
  ['A', 'B', 'C', 'D', 'E', 'F', 'G', 'H', 'I', 'J', 'K', 'L', 'M',
   'N', 'O', 'P', 'Q', 'R', 'S', 'T', 'U', 'V', 'W', 'X', 'Y', 'Z',
   'a', 'b', 'c', 'd', 'e', 'f', 'g', 'h', 'i', 'j', 'k', 'l', 'm',
   'n', 'o', 'p', 'q', 'r', 's', 't', 'u', 'v', 'w', 'x', 'y', 'z',
   '0', '1', '2', '3', '4', '5', '6', '7', '8', '9', '-']

/-- The characters `'0123456789-'` not allowed first in an attribute type. -/
def typeBadFirst : List Char :=
  ['0', '1', '2', '3', '4', '5', '6', '7', '8', '9', '-']

/-- Python whitespace stripped by `str.strip()`. -/
def isPySpace (c : Char) : Bool :=
  c = ' ' || c = '\t' || c = '\n' || c = '\r' || c = '\x0b' || c = '\x0c'

/-- `str.strip()`: remove leading and trailing whitespace. -/
def pyStrip (s : List Char) : List Char :=
  ((s.dropWhile isPySpace).reverse.dropWhile isPySpace).reverse

/-- Helper for Python `str.find`: scan `s` left to right, the index of the
first occurrence of `c` being counted from `i`; `-1` when absent. -/
def pyFindAux (c : Char) : List Char → Nat → Int
  | [], _ => -1
  | x :: xs, i => if x = c then (i : Int) else pyFindAux c xs (i + 1)

/-- Python `s.find(c)`: index of the first occurrence of `c`, `-1` if absent. -/
def pyFind (s : List Char) (c : Char) : Int :=
  pyFindAux c s 0

/-- Python `s.find(c, i, j)` for `0 ≤ i ≤ j`: index of the first occurrence
of `c` in the slice `s[i:j]`, counted in `s`, `-1` if absent. -/
def pyFindRange (s : List Char) (c : Char) (i j : Int) : Int :=
  pyFindAux c ((s.take j.toNat).drop i.toNat) i.toNat

/-- Helper for Python `str.rfind`: the largest index `< j` where `c`
occurs in `s`, `-1` if there is none. -/
def pyRFindN (s : List Char) (c : Char) : Nat → Int
  | 0 => -1
  | j + 1 => if s.get? j = some c then (j : Int) else pyRFindN s c j

/-- Python `s.rfind(c, 0, j)` for `0 ≤ j`: the largest index `< j` where `c`
occurs in `s`, `-1` if there is none (`s.rfind(c)` is `j = len(s)`). -/
def pyRFind (s : List Char) (c : Char) (j : Int) : Int :=
  pyRFindN s c j.toNat

/-- `get_next_ava(dn)`: find the boundary of the next AVA in `dn`. -/
def get_next_ava (dn : List Char) : List Char × List Char :=
  let comma := pyFind dn ','
  let plus := pyFind dn '+'
  if plus > 0 ∧ plus < comma then
    -- break dn at + only if an equal is still present between + and ,
    if pyFindRange dn '=' plus comma > 0 then
      (dn.take plus.toNat, ['+'])
    else
      (dn.take comma.toNat, [','])
  else if comma > 0 then
    (dn.take comma.toNat, [','])
  else
    (dn, [])

/-- The value half returned by `split_ava`.  In the branch where no
unescaped `=` is found the Python code returns `ava.strip` — the *bound
method* (the call parentheses are missing in the source), not the stripped
string; `stripMethod ava` models that method object. -/
inductive AvaValue where
  | str : List Char → AvaValue
  | stripMethod : List Char → AvaValue
deriving DecidableEq, Repr

/-- `escape_attribute_value`'s scanner step: state, output built so far,
and the one-character hex buffer. -/
def escStep : State × List Char × List Char → Char → State × List Char × List Char
  | (State.any, escaped, buffer), c =>
    if c = '\\' then (State.escape, escaped, buffer)
    else if c ∈ anySpecials then (State.any, escaped ++ ['\\', c], buffer)
    else (State.any, escaped ++ [c], buffer)
  | (State.escape, escaped, buffer), c =>
    if c ∈ hexdigits then (State.escapeHex, escaped, [c])
    else if c ∈ escSpecials then (State.any, escaped ++ ['\\', c], buffer)
    else
      -- the source emits '\\' + c here but never resets state to STATE_ANY
      (State.escape, escaped ++ ['\\', '\\', c], buffer)
  | (State.escapeHex, escaped, buffer), c =>
    if c ∈ hexdigits then (State.any, escaped ++ '\\' :: buffer ++ [c], [])
    else (State.any, escaped ++ '\\' :: '\\' :: buffer ++ [c], [])

/-- The loop of `escape_attribute_value` over the input characters. -/
def escRun (x : State × List Char × List Char) (cs : List Char) :
    State × List Char × List Char :=
  cs.foldl escStep x

/-- The `for c in attribute_value` loop inside `escape_attribute_value`'s
leading-`#` branch.  The source tests `not 'c' in hexdigits` — the literal
character `'c'`, not the loop variable — so the test is constant. -/
def escHexLoopValid : List Char → Bool
  | [] => true
  | _c :: cs => if 'c' ∈ hexdigits then escHexLoopValid cs else false

/-- The `valid` flag computed in `escape_attribute_value` when the value
starts with `#`: cleared when the length is even, then the (bugged,
constant) hex-digit loop runs. -/
def escHexBranchValid (v : List Char) : Bool :=
  if v.length % 2 = 0 then false else escHexLoopValid v

/-- `escape_attribute_value(attribute_value)`.  `.error .indexError` models
Python's `IndexError` at `escaped[0]` were the built buffer empty. -/
def escape_attribute_value (v : List Char) : Except PyErr (List Char) :=
  match v with
  | [] => Except.ok []
  | c0 :: _ =>
    if c0 = '#' ∧ escHexBranchValid v then
      -- with leading SHARP only pairs of hex characters are valid
      Except.ok v
    else
      let r := escRun (State.any, [], []) v
      let escaped :=
        match r.1 with
        | State.escape => r.2.1 ++ ['\\', '\\']
        | State.escapeHex => r.2.1 ++ '\\' :: '\\' :: r.2.2
        | State.any => r.2.1
      match escaped with
      | [] => Except.error PyErr.indexError
      | e0 :: _ =>
        -- leading SPACE must be escaped
        let esc2 := if e0 = ' ' then '\\' :: escaped else escaped
        -- trailing SPACE must be escaped
        let esc3 :=
          if esc2.getLast? = some ' ' ∧ esc2.length > 1 ∧
              esc2.get? (esc2.length - 2) ≠ some '\\' then
            esc2.dropLast ++ ['\\', ' ']
          else
            esc2
        Except.ok esc3

/-- `pyRFindN s c j` is smaller than `j`. -/
theorem pyRFindN_lt (s : List Char) (c : Char) (j : Nat) :
    pyRFindN s c j < (j : Int) := by
  induction j with
  | zero => simp [pyRFindN]
  | succ j ih =>
    simp only [pyRFindN]
    split
    · exact lt_of_le_of_lt (le_refl _) (by exact_mod_cast Nat.lt_succ_self j)
    · exact lt_trans ih (by exact_mod_cast Nat.lt_succ_self j)

/-- The loop of `split_ava`: `equal` scans the unescaped `=` candidates
right to left (`while equal > 0: ... equal = ava.rfind('=', 0, equal)`).
The loop variant is `equal` itself, so the fuel `equal.toNat + 1` always
suffices; `none` models non-termination and is never reached. -/
def split_ava_loop (ava : List Char) (escape strip : Bool) :
    Nat → Int → Option (Except PyErr (List Char × AvaValue))
  | 0, _ => none
  | fuel + 1, equal =>
    if equal > 0 then
      if ava.get? (equal.toNat - 1) ≠ some '\\' then
        -- not an escaped equal, so it is the ava separator
        -- (the source assigns attribute_type twice in the strip branch;
        -- the first assignment is immediately overwritten)
        if strip then some (do
          let v ← if escape then
              escape_attribute_value (pyStrip (ava.drop (equal.toNat + 1)))
            else
              pure (pyStrip (ava.drop (equal.toNat + 1)))
          pure (pyStrip (ava.take equal.toNat), AvaValue.str v))
        else some (do
          let v ← if escape then
              escape_attribute_value (ava.drop (equal.toNat + 1))
            else
              pure (ava.drop (equal.toNat + 1))
          pure (ava.take equal.toNat, AvaValue.str v))
      else
        split_ava_loop ava escape strip fuel (pyRFind ava '=' equal)
    else
      -- no unescaped equal found: return only a value; with strip=True the
      -- source returns `ava.strip`, the unapplied bound method
      some (pure ([], if strip then AvaValue.stripMethod ava else AvaValue.str ava))

/-- `split_ava(ava, escape, strip)`: split an AVA at its rightmost
unescaped `=`.  The fuel is sufficient (see `split_ava_loop_isSome`);
the default is dead code. -/
def split_ava (ava : List Char) (escape strip : Bool) :
    Except PyErr (List Char × AvaValue) :=
  (split_ava_loop ava escape strip (ava.length + 1)
      (pyRFind ava '=' ava.length)).getD
    (Except.error (PyErr.invalidDn "nontermination"))

/-- The `for c in attribute_type` loop of `validate_attribute_type`. -/
def vatCharsCheck : List Char → Except PyErr Unit
  | [] => Except.ok ()
  | c :: cs =>
    if c ∈ typeChars then vatCharsCheck cs
    else Except.error (PyErr.invalidDn
      ("character " ++ String.mk [c] ++ " not allowed in Attribute Type"))

/-- `validate_attribute_type(attribute_type)`. -/
def validate_attribute_type (t : List Char) : Except PyErr Bool :=
  match t with
  | [] => Except.ok false
  | c :: cs => do
    vatCharsCheck (c :: cs)
    if c ∈ typeBadFirst then
      Except.error (PyErr.invalidDn
        ("character " ++ String.mk [c] ++
         " not allowed as first character of Attribute Type"))
    else
      pure true

/-- The `for c in attribute_value` loop inside `validate_attribute_value`'s
leading-`#` branch.  As in `escape_attribute_value`, the source tests
`not 'c' in hexdigits` with the literal `'c'`, so it never raises. -/
def vavHexCheck : List Char → Except PyErr Unit
  | [] => Except.ok ()
  | c :: cs =>
    if 'c' ∈ hexdigits then vavHexCheck cs
    else Except.error (PyErr.invalidDn
      ("character " ++ String.mk [c] ++
       " not allowed in hex representation of Attribute_Value"))

/-- `validate_attribute_value`'s scanner step. -/
def vavStep (st : State) (c : Char) : Except PyErr State :=
  match st with
  | State.any =>
    if c = '\\' then Except.ok State.escape
    else if c ∈ anySpecials then
      Except.error (PyErr.invalidDn
        ("special characters " ++ String.mk [c] ++ " must be escaped"))
    else Except.ok State.any
  | State.escape =>
    if c ∈ hexdigits then Except.ok State.escapeHex
    else if c ∈ escSpecials then Except.ok State.any
    else Except.error (PyErr.invalidDn
      ("invalid escaped character " ++ String.mk [c]))
  | State.escapeHex =>
    if c ∈ hexdigits then Except.ok State.any
    else Except.error (PyErr.invalidDn
      ("invalid escaped character " ++ String.mk [c]))

/-- The scanner loop of `validate_attribute_value`. -/
def vavRun (st : State) : List Char → Except PyErr State
  | [] => Except.ok st
  | c :: cs => do vavRun (← vavStep st c) cs

/-- `validate_attribute_value(attribute_value)`. -/
def validate_attribute_value (v : List Char) : Except PyErr Bool :=
  match v with
  | [] => Except.ok false
  | c0 :: _ => do
    if c0 = '#' then do
      vavHexCheck v
      if v.length % 2 = 0 then
        throw (PyErr.invalidDn
          "hex representation must be in the form of <HEX><HEX> pairs")
    if c0 = ' ' then
      throw (PyErr.invalidDn "SPACE not allowed as first character of Attribute Value")
    if v.getLast? = some ' ' then
      throw (PyErr.invalidDn "SPACE not allowed as last character of Attribute Value")
    let st ← vavRun State.any v
    if st ≠ State.any then
      throw (PyErr.invalidDn "invalid final character")
    pure true

/-- `validate_attribute_value` applied to the object `split_ava` returned:
on a bound method (see `AvaValue.stripMethod`) the truthiness test passes
and `attribute_value[0]` raises a `TypeError`. -/
def validate_attribute_value_ava : AvaValue → Except PyErr Bool
  | AvaValue.str s => validate_attribute_value s
  | AvaValue.stripMethod _ => Except.error PyErr.typeError

/-- One parsed AVA: attribute type, attribute value, separator. -/
abbrev Ava := List Char × AvaValue × List Char

/-- The `while not done` loop of `parse_dn`, with explicit fuel; `none`
models non-termination (never reached, see the termination theorem). -/
def parse_dn_loop : Nat → List Char → Bool → Bool → List Ava →
    Option (Except PyErr (List Ava))
  | 0, _, _, _, _ => none
  | fuel + 1, dn, escape, strip, rdns =>
    let (ava, separator) := get_next_ava dn
    if ava = [] then
      some (Except.ok rdns)
    else
      match split_ava ava escape strip with
      | Except.error e => some (Except.error e)
      | Except.ok (t, av) =>
        match validate_attribute_type t with
        | Except.error e => some (Except.error e)
        | Except.ok bt =>
          if !bt then
            some (Except.error (PyErr.invalidDn
              ("unable to validate attribute type: " ++ String.mk t)))
          else
            match validate_attribute_value_ava av with
            | Except.error e => some (Except.error e)
            | Except.ok bv =>
              if !bv then
                some (Except.error (PyErr.invalidDn
                  "unable to validate attribute value: "))
              else
                parse_dn_loop fuel (dn.drop (ava.length + 1)) escape strip
                  (rdns ++ [(t, av, separator)])

/-- `parse_dn(dn, escape, strip)`.  The fuel `dn.length + 1` is always
sufficient (see the termination theorem); the default is dead code. -/
def parse_dn (dn : List Char) (escape strip : Bool) :
    Except PyErr (List Ava) :=
  (parse_dn_loop (dn.length + 1) dn escape strip []).getD
    (Except.error (PyErr.invalidDn "nontermination"))

/-- String concatenation with an `AvaValue`: concatenating a bound method
raises a `TypeError` in Python. -/
def avaValStr : AvaValue → Except PyErr (List Char)
  | AvaValue.str s => Except.ok s
  | AvaValue.stripMethod _ => Except.error PyErr.typeError

/-- One step of `safe_dn`'s concatenation
`safe_dn += rdn[0] + '=' + rdn[1] + rdn[2]`. -/
def safe_dn_step (acc : List Char) (r : Ava) : Except PyErr (List Char) := do
  let v ← avaValStr r.2.1
  pure (acc ++ r.1 ++ '=' :: v ++ r.2.2)

/-- `safe_dn(dn)`: re-assemble the parse of `dn` with escaping applied. -/
def safe_dn (dn : List Char) : Except PyErr (List Char) := do
  let rdns ← parse_dn dn true true
  rdns.foldlM safe_dn_step []

/-! ## Basic facts about the helpers -/

/-- The fuel of `split_ava_loop` is never exhausted when it exceeds the
loop variant `equal`. -/
theorem split_ava_loop_isSome (ava : List Char) (escape strip : Bool) :
    ∀ fuel : Nat, ∀ equal : Int, equal.toNat < fuel →
      (split_ava_loop ava escape strip fuel equal).isSome := by
  intro fuel
  induction fuel with
  | zero => intro equal h; omega
  | succ n ih =>
    intro equal h
    rw [split_ava_loop]
    by_cases h1 : equal > 0
    · simp only [if_pos h1]
      by_cases h2 : ava.get? (equal.toNat - 1) ≠ some '\\'
      · simp only [if_pos h2]
        cases strip <;> simp
      · simp only [if_neg h2]
        apply ih
        have h3 : pyRFindN ava '=' equal.toNat < (equal.toNat : Int) :=
          pyRFindN_lt ava '=' equal.toNat
        simp only [pyRFind]
        omega
    · simp [if_neg h1]

/-! ## Shape of the validator results -/

/-- `validate_attribute_type` on a non-empty input returns `True` or raises. -/
theorem validate_attribute_type_ne_ok_false (c : Char) (cs : List Char) :
    validate_attribute_type (c :: cs) ≠ Except.ok false := by
  simp only [validate_attribute_type]
  cases h : vatCharsCheck (c :: cs) with
  | error e => simp [Bind.bind, Except.bind, h]
  | ok u =>
    cases u
    by_cases hc : c ∈ typeBadFirst <;>
      simp [Bind.bind, Except.bind, h, hc, pure, Except.pure]

/-- `validate_attribute_value` on a non-empty input returns `True` or raises. -/
theorem validate_attribute_value_ne_ok_false (c : Char) (cs : List Char) :
    validate_attribute_value (c :: cs) ≠ Except.ok false := by
  intro hcon
  simp only [validate_attribute_value] at hcon
  cases h2 : vavHexCheck (c :: cs) <;>
    cases h6 : vavRun State.any (c :: cs) <;>
      simp only [h2, h6, Bind.bind, Except.bind, throw, throwThe,
        MonadExceptOf.throw, pure, Except.pure] at hcon <;>
      split_ifs at hcon <;>
      simp_all

/-- C7: the validators return `False` exactly on the empty string; a
non-empty argument is either accepted with `True` or rejected by raising. -/
theorem claim_C7 (s : List Char) :
    (validate_attribute_type s = Except.ok false ↔ s = []) ∧
    (validate_attribute_value s = Except.ok false ↔ s = []) := by
  cases s with
  | nil => exact ⟨by simp [validate_attribute_type], by simp [validate_attribute_value]⟩
  | cons c cs =>
    constructor
    · constructor
      · intro h; exact absurd h (validate_attribute_type_ne_ok_false c cs)
      · intro h; cases h
    · constructor
      · intro h; exact absurd h (validate_attribute_value_ne_ok_false c cs)
      · intro h; cases h

/-! ## Claims settled by evaluation -/

/-- C4: `parse_dn("cn=a+ou=b,dc=example")` returns exactly the three AVAs
`("cn","a","+")`, `("ou","b",",")`, `("dc","example","")` in order. -/
theorem claim_C4 :
    parse_dn "cn=a+ou=b,dc=example".toList false true =
      Except.ok [(['c', 'n'], AvaValue.str ['a'], ['+']),
                 (['o', 'u'], AvaValue.str ['b'], [',']),
                 (['d', 'c'], AvaValue.str ['e', 'x', 'a', 'm', 'p', 'l', 'e'], [])] := by
  rfl

/-- C1 fails on the code: on the input `" "` (one space),
`escape_attribute_value` dutifully escapes the trailing space, producing
`"\ "`, but `validate_attribute_value` rejects `"\ "` by raising
`LDAPInvalidDnError` because it tests the raw last character for a space
even when that space is escaped; on `""` the composition returns `False`,
not `True`. -/
theorem claim_C1_failing_eval :
    escape_attribute_value [' '] = Except.ok ['\\', ' '] ∧
    validate_attribute_value ['\\', ' '] =
      Except.error (PyErr.invalidDn
        "SPACE not allowed as last character of Attribute Value") ∧
    validate_attribute_value [] = Except.ok false := by
  exact ⟨rfl, rfl, rfl⟩

/-- C3 fails on the code: `validate_attribute_value("#1a2b")` raises
`LDAPInvalidDnError` instead of returning `True`.  The hex-digit loop
tests the literal character `'c'` instead of the loop variable, and the
function then falls through into the escape scanner, which rejects the
unescaped leading `#`.  (`"#1a2"` does fail as the claim says, though via
the even-length test, and `escape_attribute_value` does return `"#1a2b"`
unchanged.) -/
theorem claim_C3_failing_eval :
    validate_attribute_value "#1a2b".toList =
      Except.error (PyErr.invalidDn "special characters # must be escaped") ∧
    validate_attribute_value "#1a2".toList =
      Except.error (PyErr.invalidDn
        "hex representation must be in the form of <HEX><HEX> pairs") ∧
    escape_attribute_value "#1a2b".toList = Except.ok "#1a2b".toList := by
  exact ⟨rfl, rfl, rfl⟩

/-- C8 fails on the code: with no unescaped `=` in the AVA and
`strip=True`, `split_ava` returns `ava.strip` — the bound method object,
because the call parentheses are missing — not the stripped substring.  On
`"  abc  "` the result is the method of the *unstripped* string, and in
particular differs from the stripped string `"abc"` the claim promises. -/
theorem claim_C8_failing_eval :
    split_ava "  abc  ".toList false true =
      Except.ok ([], AvaValue.stripMethod "  abc  ".toList) ∧
    AvaValue.stripMethod "  abc  ".toList ≠ AvaValue.str "abc".toList := by
  exact ⟨rfl, by decide⟩

/-- C5 is wrong about the state transition: in the `ESCAPE` state, on a
character that is neither a hex digit nor a special, the escaper emits
`\\` + c but stays in `ESCAPE` (the source never resets the state), so the
next character is again processed in the `ESCAPE` state; on `"\xy"` the
whole function therefore produces `"\\x\\y\\"`, not `"\\xy"`. -/
theorem claim_C5_counterexample :
    (escStep (State.escape, [], []) 'x').1 = State.escape ∧
    State.escape ≠ State.any ∧
    escape_attribute_value ['\\', 'x', 'y'] =
      Except.ok ['\\', '\\', 'x', '\\', '\\', 'y', '\\', '\\'] ∧
    Except.ok ['\\', '\\', 'x', '\\', '\\', 'y', '\\', '\\'] ≠
      (Except.ok ['\\', '\\', 'x', 'y'] : Except PyErr (List Char)) := by
  exact ⟨rfl, by decide, rfl, by decide⟩

/-- C5 (amended): in the `ESCAPE` state, a character that is neither a hex
digit nor one of `SPACE " # + , ; < = > \ NUL` makes the escaper emit a
doubled backslash followed by the character and *remain* in the `ESCAPE`
state, so the next character is again processed in the `ESCAPE` state. -/
theorem claim_C5 (esc buf : List Char) (c : Char)
    (h1 : c ∉ hexdigits) (h2 : c ∉ escSpecials) :
    escStep (State.escape, esc, buf) c =
      (State.escape, esc ++ ['\\', '\\', c], buf) := by
  simp [escStep, h1, h2]

/-- Witness for the amended C5 at `c = 'x'`. -/
theorem claim_C5_witness :
    escStep (State.escape, ['a'], []) 'x' =
      (State.escape, ['a', '\\', '\\', 'x'], []) :=
  claim_C5 ['a'] [] 'x' (by decide) (by decide)

/-! ## Totality of the escaper (C6) -/

/-- Whenever a step of the escaper lands in `STATE_ANY`, it has emitted at
least one character: every transition into `ANY` appends to the output. -/
theorem escStep_any_ne_nil (x : State × List Char × List Char) (c : Char)
    (h : (escStep x c).1 = State.any) : (escStep x c).2.1 ≠ [] := by
  obtain ⟨st, esc, buf⟩ := x
  cases st <;> simp only [escStep] at h ⊢ <;> split_ifs at h ⊢ <;>
    simp_all

/-- Unrolling the escaper loop at the last character. -/
theorem escRun_concat (x : State × List Char × List Char)
    (cs : List Char) (c : Char) :
    escRun x (cs ++ [c]) = escStep (escRun x cs) c := by
  simp [escRun, List.foldl_append]

/-- After scanning a non-empty input, if the escaper is in `STATE_ANY`
then its output buffer is non-empty. -/
theorem escRun_any_ne_nil (v : List Char) (hv : v ≠ [])
    (h : (escRun (State.any, [], []) v).1 = State.any) :
    (escRun (State.any, [], []) v).2.1 ≠ [] := by
  rcases List.eq_nil_or_concat v with rfl | ⟨cs, c, rfl⟩
  · exact absurd rfl hv
  · simp only [List.concat_eq_append] at h ⊢
    rw [escRun_concat] at h ⊢
    exact escStep_any_ne_nil _ c h

/-- C6: `escape_attribute_value` is total — on every input it returns a
string (never an `IndexError` or other exception), and the empty input
yields the empty string.  In particular the `escaped[0]` / `escaped[-1]`
accesses are only reached with a non-empty buffer. -/
theorem claim_C6 :
    escape_attribute_value [] = Except.ok [] ∧
    ∀ v : List Char, ∃ r : List Char, escape_attribute_value v = Except.ok r := by
  refine ⟨rfl, fun v => ?_⟩
  cases v with
  | nil => exact ⟨[], rfl⟩
  | cons c0 cs =>
    simp only [escape_attribute_value]
    by_cases hhex : c0 = '#' ∧ escHexBranchValid (c0 :: cs)
    · rw [if_pos hhex]
      exact ⟨c0 :: cs, rfl⟩
    · rw [if_neg hhex]
      have hne : (match (escRun (State.any, [], []) (c0 :: cs)).1 with
          | State.escape => (escRun (State.any, [], []) (c0 :: cs)).2.1 ++ ['\\', '\\']
          | State.escapeHex => (escRun (State.any, [], []) (c0 :: cs)).2.1 ++
              '\\' :: '\\' :: (escRun (State.any, [], []) (c0 :: cs)).2.2
          | State.any => (escRun (State.any, [], []) (c0 :: cs)).2.1) ≠ [] := by
        cases hst : (escRun (State.any, [], []) (c0 :: cs)).1 <;> simp only [hst]
        · exact escRun_any_ne_nil (c0 :: cs) (by simp) hst
        · simp
        · simp
      match hm : (match (escRun (State.any, [], []) (c0 :: cs)).1 with
          | State.escape => (escRun (State.any, [], []) (c0 :: cs)).2.1 ++ ['\\', '\\']
          | State.escapeHex => (escRun (State.any, [], []) (c0 :: cs)).2.1 ++
              '\\' :: '\\' :: (escRun (State.any, [], []) (c0 :: cs)).2.2
          | State.any => (escRun (State.any, [], []) (c0 :: cs)).2.1) with
      | [] => exact absurd hm hne
      | e0 :: rest => exact ⟨_, rfl⟩

/-! ## Termination of parse_dn (C10) -/

/-- On the empty string the boundary finder returns an empty AVA. -/
theorem get_next_ava_nil : get_next_ava [] = ([], []) := rfl

/-- With fuel exceeding the length of the remaining string, `parse_dn`'s
loop never runs out: in each iteration either the AVA is empty and the
loop ends, or the remaining string strictly shrinks. -/
theorem parse_dn_loop_isSome :
    ∀ (fuel : Nat) (dn : List Char) (escape strip : Bool) (acc : List Ava),
      dn.length < fuel → (parse_dn_loop fuel dn escape strip acc).isSome := by
  intro fuel
  induction fuel with
  | zero => intro dn _ _ _ h; omega
  | succ n ih =>
    intro dn e s acc h
    rw [parse_dn_loop]
    rcases hava : get_next_ava dn with ⟨ava, sep⟩
    simp only [hava]
    by_cases ha : ava = []
    · simp [ha]
    · simp only [if_neg ha]
      have hdn : dn ≠ [] := by
        rintro rfl
        rw [get_next_ava_nil] at hava
        cases hava
        exact ha rfl
      cases hsp : split_ava ava e s with
      | error err => simp [hsp]
      | ok p =>
        obtain ⟨t, av⟩ := p
        cases hvt : validate_attribute_type t with
        | error err => simp [hsp, hvt]
        | ok bt =>
          cases bt
          · simp [hsp, hvt]
          · cases hvv : validate_attribute_value_ava av with
            | error err => simp [hsp, hvt, hvv]
            | ok bv =>
              cases bv
              · simp [hsp, hvt, hvv]
              · simp only [hsp, hvt, hvv, Bool.not_true, Bool.false_eq_true,
                  reduceIte]
                apply ih
                have h2 : (dn.drop (ava.length + 1)).length < dn.length := by
                  rw [List.length_drop]
                  have : 0 < dn.length := List.length_pos.mpr hdn
                  omega
                omega

/-- C10: `parse_dn` terminates on every input string — with any fuel
exceeding the input length, the while-loop reaches its exit before the
fuel runs out. -/
theorem claim_C10 (fuel : Nat) (dn : List Char) (escape strip : Bool)
    (acc : List Ava) (h : dn.length < fuel) :
    (parse_dn_loop fuel dn escape strip acc).isSome :=
  parse_dn_loop_isSome fuel dn escape strip acc h

/-- Witness for C10 at the input `"cn=a"` with fuel `5`. -/
theorem claim_C10_witness :
    (parse_dn_loop 5 ['c', 'n', '=', 'a'] false true []).isSome :=
  claim_C10 5 ['c', 'n', '=', 'a'] false true [] (by decide)

/-- `parse_dn` succeeds exactly when its (sufficiently fuelled) loop does. -/
theorem parse_dn_eq_ok_iff (dn : List Char) (escape strip : Bool)
    (l : List Ava) :
    parse_dn dn escape strip = Except.ok l ↔
      parse_dn_loop (dn.length + 1) dn escape strip [] =
        some (Except.ok l) := by
  have hs := parse_dn_loop_isSome (dn.length + 1) dn escape strip []
    (Nat.lt_succ_self _)
  obtain ⟨r, hr⟩ := Option.isSome_iff_exists.mp hs
  rw [parse_dn, hr]
  simp

/-! ## The separator invariant (C9) -/

/-- The separator returned by `get_next_ava` is `''`, `','` or `'+'`. -/
theorem get_next_ava_sep (dn : List Char) :
    (get_next_ava dn).2 = [] ∨ (get_next_ava dn).2 = [','] ∨
      (get_next_ava dn).2 = ['+'] := by
  rw [get_next_ava]
  split_ifs <;> simp

/-- An empty separator comes from the final branch of `get_next_ava`, in
which the AVA is the whole remaining string. -/
theorem get_next_ava_sep_nil (dn ava : List Char)
    (h : get_next_ava dn = (ava, [])) : ava = dn := by
  rw [get_next_ava] at h
  split_ifs at h <;> cases h <;> rfl

/-- `parse_dn`'s loop on an empty remaining string returns straight away. -/
theorem parse_dn_loop_nil (fuel : Nat) (escape strip : Bool) (acc l : List Ava)
    (h : parse_dn_loop fuel [] escape strip acc = some (Except.ok l)) :
    l = acc := by
  cases fuel with
  | zero => cases h
  | succ n =>
    rw [parse_dn_loop] at h
    simp only [get_next_ava_nil, reduceIte] at h
    cases h
    rfl

/-- The loop appends AVAs whose separators are `''`, `','` or `'+'`, with
`''` only on the last one appended. -/
theorem parse_dn_loop_seps :
    ∀ (fuel : Nat) (dn : List Char) (escape strip : Bool) (acc l : List Ava),
      parse_dn_loop fuel dn escape strip acc = some (Except.ok l) →
      ∃ tail, l = acc ++ tail ∧
        (∀ x ∈ tail, x.2.2 = [] ∨ x.2.2 = [','] ∨ x.2.2 = ['+']) ∧
        (∀ pre x suf, tail = pre ++ x :: suf → suf ≠ [] →
          x.2.2 = [','] ∨ x.2.2 = ['+']) := by
  intro fuel
  induction fuel with
  | zero => intro dn _ _ acc l h; cases h
  | succ n ih =>
    intro dn e s acc l h
    rw [parse_dn_loop] at h
    rcases hava : get_next_ava dn with ⟨ava, sep⟩
    simp only [hava] at h
    by_cases ha : ava = []
    · rw [if_pos ha] at h
      cases h
      exact ⟨[], by simp, by simp, by intro pre x suf hx _; simp at hx⟩
    · rw [if_neg ha] at h
      cases hsp : split_ava ava e s with
      | error err => simp [hsp] at h
      | ok p =>
        obtain ⟨t, av⟩ := p
        simp only [hsp] at h
        cases hvt : validate_attribute_type t with
        | error err => simp [hvt] at h
        | ok bt =>
          simp only [hvt] at h
          cases bt
          · simp [Bool.not_false, reduceIte] at h
          · simp only [Bool.not_true, Bool.false_eq_true, reduceIte] at h
            cases hvv : validate_attribute_value_ava av with
            | error err => simp [hvv] at h
            | ok bv =>
              simp only [hvv] at h
              cases bv
              · simp [Bool.not_false, reduceIte] at h
              · simp only [Bool.not_true, Bool.false_eq_true, reduceIte] at h
                rcases get_next_ava_sep dn with hsep | hsep | hsep <;>
                  rw [hava] at hsep <;> simp only at hsep <;> subst hsep
                · -- separator '': the AVA was the whole string, the next
                  -- iteration sees an empty string and stops
                  have hava2 : ava = dn := get_next_ava_sep_nil dn ava hava
                  have hdrop : dn.drop (ava.length + 1) = [] := by
                    rw [hava2]
                    simp [List.drop_eq_nil_iff]
                  rw [hdrop] at h
                  have hl : l = acc ++ [(t, av, [])] := parse_dn_loop_nil n e s _ l h
                  refine ⟨[(t, av, [])], hl, by simp, ?_⟩
                  intro pre x suf hx hsuf
                  rcases pre with _ | ⟨y, pre⟩
                  · have h12 := List.cons.inj (show x :: suf = [(t, av, ([] : List Char))] by
                      simpa using hx.symm)
                    exact absurd h12.2 hsuf
                  · have h12 := List.cons.inj (show y :: (pre ++ x :: suf) = [(t, av, ([] : List Char))] by
                      simpa using hx.symm)
                    exact absurd h12.2 (by simp)
                · -- separator ','
                  obtain ⟨tail, hl, hmem, hlast⟩ := ih _ e s _ l h
                  refine ⟨(t, av, [',']) :: tail, by simpa using hl, ?_, ?_⟩
                  · intro x hx
                    rcases List.mem_cons.mp hx with rfl | hx
                    · simp
                    · exact hmem x hx
                  · intro pre x suf hx hsuf
                    rcases pre with _ | ⟨y, pre⟩
                    · have h12 := List.cons.inj (show x :: suf = (t, av, [',']) :: tail by
                        simpa using hx.symm)
                      rw [h12.1]
                      simp
                    · have h12 := List.cons.inj (show y :: (pre ++ x :: suf) = (t, av, [',']) :: tail by
                        simpa using hx.symm)
                      exact hlast pre x suf h12.2.symm hsuf
                · -- separator '+'
                  obtain ⟨tail, hl, hmem, hlast⟩ := ih _ e s _ l h
                  refine ⟨(t, av, ['+']) :: tail, by simpa using hl, ?_, ?_⟩
                  · intro x hx
                    rcases List.mem_cons.mp hx with rfl | hx
                    · simp
                    · exact hmem x hx
                  · intro pre x suf hx hsuf
                    rcases pre with _ | ⟨y, pre⟩
                    · have h12 := List.cons.inj (show x :: suf = (t, av, ['+']) :: tail by
                        simpa using hx.symm)
                      rw [h12.1]
                      simp
                    · have h12 := List.cons.inj (show y :: (pre ++ x :: suf) = (t, av, ['+']) :: tail by
                        simpa using hx.symm)
                      exact hlast pre x suf h12.2.symm hsuf

/-- C9 fails as stated: a trailing comma survives into the last AVA's
separator, so the last separator need not be `''` — on `"cn=a,"`,
`parse_dn` succeeds and the (single, hence last) AVA carries separator
`","`. -/
theorem claim_C9_counterexample :
    parse_dn ['c', 'n', '=', 'a', ','] false true =
      Except.ok [(['c', 'n'], AvaValue.str ['a'], [','])] ∧
    ([','] : List Char) ≠ [] := by
  exact ⟨rfl, by decide⟩

/-- C9 (amended): whenever `parse_dn` succeeds, every returned separator
is `","`, `"+"` or `""`, and every AVA other than the last has separator
`","` or `"+"` (equivalently, a separator `""` occurs only on the last
AVA); the last AVA's separator may however also be `","`, when the input
ends with a trailing comma. -/
theorem claim_C9 (dn : List Char) (escape strip : Bool) (l : List Ava)
    (h : parse_dn dn escape strip = Except.ok l) :
    (∀ x ∈ l, x.2.2 = [] ∨ x.2.2 = [','] ∨ x.2.2 = ['+']) ∧
    (∀ pre x suf, l = pre ++ x :: suf → suf ≠ [] →
      x.2.2 = [','] ∨ x.2.2 = ['+']) := by
  rw [parse_dn_eq_ok_iff] at h
  obtain ⟨tail, hl, hmem, hlast⟩ :=
    parse_dn_loop_seps (dn.length + 1) dn escape strip [] l h
  simp only [List.nil_append] at hl
  subst hl
  exact ⟨hmem, hlast⟩

/-- Witness for C9 at the input of C4-like shape `"cn=a,dc=b"`. -/
theorem claim_C9_witness :
    (∀ x ∈ [(['c', 'n'], AvaValue.str ['a'], [',']),
            (['d', 'c'], AvaValue.str ['b'], ([] : List Char))],
        x.2.2 = [] ∨ x.2.2 = [','] ∨ x.2.2 = ['+']) ∧
    (∀ pre x suf,
        [(['c', 'n'], AvaValue.str ['a'], [',']),
         (['d', 'c'], AvaValue.str ['b'], ([] : List Char))] =
          pre ++ x :: suf → suf ≠ [] →
        x.2.2 = [','] ∨ x.2.2 = ['+']) :=
  claim_C9 ['c', 'n', '=', 'a', ',', 'd', 'c', '=', 'b'] false true
    [(['c', 'n'], AvaValue.str ['a'], [',']),
     (['d', 'c'], AvaValue.str ['b'], [])] (by rfl)

/-! ## Characterisation of the find helpers -/

/-- `pyFindAux` fails exactly when the character is absent. -/
theorem pyFindAux_eq_neg_one_iff (c : Char) :
    ∀ (xs : List Char) (i : Nat), pyFindAux c xs i = -1 ↔ c ∉ xs := by
  intro xs
  induction xs with
  | nil => intro i; simp [pyFindAux]
  | cons x xs ih =>
    intro i
    by_cases hx : x = c
    · subst hx
      simp [pyFindAux]
    · simp only [pyFindAux, if_neg hx, List.mem_cons]
      rw [ih (i + 1)]
      constructor
      · rintro h (rfl | h2)
        · exact hx rfl
        · exact h h2
      · intro h h2
        exact h (Or.inr h2)

/-- `pyFindAux` either fails or returns an index at least the start. -/
theorem pyFindAux_ge (c : Char) :
    ∀ (xs : List Char) (i : Nat),
      pyFindAux c xs i = -1 ∨ (i : Int) ≤ pyFindAux c xs i := by
  intro xs
  induction xs with
  | nil => intro i; left; rfl
  | cons x xs ih =>
    intro i
    by_cases hx : x = c
    · right; simp [pyFindAux, hx]
    · rcases ih (i + 1) with h | h
      · left; simpa [pyFindAux, hx] using h
      · right
        simp only [pyFindAux, if_neg hx]
        omega

/-- Scanning past a different character advances the index. -/
theorem pyFindAux_cons_ne (c x : Char) (xs : List Char) (i : Nat)
    (h : x ≠ c) : pyFindAux c (x :: xs) i = pyFindAux c xs (i + 1) := by
  simp [pyFindAux, h]

/-- Scanning past a block without the character shifts the start index. -/
theorem pyFindAux_append_not_mem (c : Char) :
    ∀ (xs ys : List Char) (i : Nat), c ∉ xs →
      pyFindAux c (xs ++ ys) i = pyFindAux c ys (i + xs.length) := by
  intro xs
  induction xs with
  | nil => intro ys i _; simp
  | cons x xs ih =>
    intro ys i h
    have hx : x ≠ c := fun hc => h (by simp [hc])
    have h2 : c ∉ xs := fun hc => h (by simp [hc])
    rw [List.cons_append, pyFindAux_cons_ne c x (xs ++ ys) i hx,
      ih ys (i + 1) h2, List.length_cons]
    congr 1
    omega

/-- The scan stops at the character itself. -/
theorem pyFindAux_cons_self (c : Char) (ys : List Char) (i : Nat) :
    pyFindAux c (c :: ys) i = i := by
  simp [pyFindAux]

/-- If the character occurs in the first `m` elements, the scan finds it
before index `i + m`. -/
theorem pyFindAux_lt_of_mem_take (c : Char) :
    ∀ (xs : List Char) (i m : Nat), c ∈ xs.take m →
      pyFindAux c xs i ≠ -1 ∧ pyFindAux c xs i < (i : Int) + m := by
  intro xs
  induction xs with
  | nil => intro i m h; simp at h
  | cons x xs ih =>
    intro i m h
    cases m with
    | zero => simp at h
    | succ m =>
      by_cases hx : x = c
      · subst hx
        rw [pyFindAux_cons_self]
        exact ⟨by omega, by push_cast; omega⟩
      · simp only [List.take_succ_cons, List.mem_cons] at h
        rcases h with rfl | h
        · exact absurd rfl hx
        · obtain ⟨h1, h2⟩ := ih (i + 1) m h
          simp only [pyFindAux, if_neg hx]
          constructor
          · exact h1
          · push_cast at h2 ⊢
            omega

/-- A successful scan returns a position holding the character. -/
theorem pyFindAux_get (c : Char) :
    ∀ (xs : List Char) (i : Nat), 0 ≤ pyFindAux c xs i →
      (i : Int) ≤ pyFindAux c xs i ∧
      (pyFindAux c xs i).toNat - i < xs.length ∧
      xs.get? ((pyFindAux c xs i).toNat - i) = some c := by
  intro xs
  induction xs with
  | nil => intro i h; simp [pyFindAux] at h
  | cons x xs ih =>
    intro i h
    by_cases hx : x = c
    · subst hx
      simp [pyFindAux]
    · simp only [pyFindAux, if_neg hx] at h ⊢
      obtain ⟨h1, h2, h3⟩ := ih (i + 1) h
      refine ⟨by omega, by simp; omega, ?_⟩
      have he : (pyFindAux c xs (i + 1)).toNat - i =
          ((pyFindAux c xs (i + 1)).toNat - (i + 1)) + 1 := by omega
      rw [he]
      simpa using h3

/-- The scan result is bounded by any explicit occurrence. -/
theorem pyFindAux_le_append (c : Char) :
    ∀ (P : List Char) (Q : List Char) (i : Nat),
      pyFindAux c (P ++ c :: Q) i ≠ -1 ∧
      pyFindAux c (P ++ c :: Q) i ≤ (i : Int) + P.length := by
  intro P
  induction P with
  | nil => intro Q i; simp [pyFindAux_cons_self]
  | cons p P ih =>
    intro Q i
    by_cases hp : p = c
    · subst hp
      constructor <;> simp [pyFindAux_cons_self] <;> omega
    · rw [List.cons_append, pyFindAux_cons_ne c p (P ++ c :: Q) i hp]
      obtain ⟨h1, h2⟩ := ih Q (i + 1)
      refine ⟨h1, ?_⟩
      rw [List.length_cons]
      push_cast at h2 ⊢
      omega

/-- `pyFind` fails exactly when the character is absent. -/
theorem pyFind_eq_neg_one_iff (s : List Char) (c : Char) :
    pyFind s c = -1 ↔ c ∉ s :=
  pyFindAux_eq_neg_one_iff c s 0

/-- A found index holds the character. -/
theorem pyFind_get (s : List Char) (c : Char) (h : 0 ≤ pyFind s c) :
    (pyFind s c).toNat < s.length ∧ s.get? (pyFind s c).toNat = some c := by
  obtain ⟨-, h2, h3⟩ := pyFindAux_get c s 0 h
  rw [Nat.sub_zero] at h2 h3
  exact ⟨h2, h3⟩

/-- The character does not occur before the found index. -/
theorem not_mem_take_of_pyFind (s : List Char) (c : Char) (m : Nat)
    (h : pyFind s c = -1 ∨ (m : Int) ≤ pyFind s c) : c ∉ s.take m := by
  intro hmem
  obtain ⟨h1, h2⟩ := pyFindAux_lt_of_mem_take c s 0 m hmem
  rcases h with h | h
  · exact h1 h
  · simp only [pyFind] at h
    omega

/-- The found index is bounded by any explicit occurrence. -/
theorem pyFind_le_append (P Q : List Char) (c : Char) :
    pyFind (P ++ c :: Q) c ≠ -1 ∧ pyFind (P ++ c :: Q) c ≤ P.length := by
  have := pyFindAux_le_append c P Q 0
  simpa [pyFind] using this

/-- A character in the string is found at a non-negative index. -/
theorem pyFind_nonneg_of_mem (s : List Char) (c : Char) (h : c ∈ s) :
    0 ≤ pyFind s c := by
  rcases pyFindAux_ge c s 0 with h2 | h2
  · exact absurd ((pyFind_eq_neg_one_iff s c).mp h2) (by simp [h])
  · exact h2

/-! ## Characterisation of the rfind helper -/

/-- `pyRFindN` dominates every occurrence below the bound. -/
theorem pyRFindN_ge_of_get (s : List Char) (c : Char) :
    ∀ (j m : Nat), s.get? m = some c → m < j → (m : Int) ≤ pyRFindN s c j := by
  intro j
  induction j with
  | zero => intro m _ h; omega
  | succ j ih =>
    intro m hm hj
    rw [pyRFindN]
    by_cases h : s.get? j = some c
    · rw [if_pos h]
      omega
    · rw [if_neg h]
      have : m ≠ j := fun he => h (he ▸ hm)
      exact ih m hm (by omega)

/-- A successful `pyRFindN` returns a position holding the character. -/
theorem pyRFindN_get (s : List Char) (c : Char) :
    ∀ (j : Nat), 0 ≤ pyRFindN s c j →
      s.get? (pyRFindN s c j).toNat = some c := by
  intro j
  induction j with
  | zero => intro h; simp [pyRFindN] at h
  | succ j ih =>
    intro h
    rw [pyRFindN] at h ⊢
    by_cases h2 : s.get? j = some c
    · rw [if_pos h2]
      simpa using h2
    · rw [if_neg h2] at h ⊢
      exact ih h

/-! ## Decomposition at an index -/

/-- Splitting a list at a position holding a known character. -/
theorem eq_take_cons_drop (s : List Char) (k : Nat) (c : Char)
    (h : s.get? k = some c) : s = s.take k ++ c :: s.drop (k + 1) := by
  induction s generalizing k with
  | nil => simp at h
  | cons x xs ih =>
    cases k with
    | zero =>
      simp only [List.get?] at h
      cases h
      simp
    | succ k =>
      simp only [List.get?] at h
      have := ih k h
      simp only [List.take_succ_cons, List.drop_succ_cons, List.cons_append]
      exact congrArg (x :: ·) this

/-! ## Properties of pyStrip -/

/-- The head surviving `dropWhile` fails the predicate. -/
theorem head_dropWhile_not (p : Char → Bool) :
    ∀ (s : List Char) (a : Char), (s.dropWhile p).head? = some a → p a = false := by
  intro s
  induction s with
  | nil => intro a h; simp [List.dropWhile] at h
  | cons x xs ih =>
    intro a h
    by_cases hx : p x
    · rw [List.dropWhile_cons_of_pos hx] at h
      exact ih a h
    · rw [List.dropWhile_cons_of_neg hx] at h
      simp only [List.head?_cons, Option.some.injEq] at h
      subst h
      simpa using hx

/-- `dropWhile` is the identity when the head fails the predicate. -/
theorem dropWhile_eq_self_of_head (p : Char → Bool) (s : List Char)
    (h : ∀ a, s.head? = some a → p a = false) : s.dropWhile p = s := by
  cases s with
  | nil => rfl
  | cons x xs =>
    have := h x rfl
    rw [List.dropWhile_cons_of_neg (by simp [this])]

/-- A non-empty `dropWhile` keeps the last element. -/
theorem getLast_dropWhile (p : Char → Bool) :
    ∀ (s : List Char), s.dropWhile p ≠ [] →
      (s.dropWhile p).getLast? = s.getLast? := by
  intro s
  induction s with
  | nil => intro h; simp at h
  | cons x xs ih =>
    intro h
    by_cases hx : p x
    · rw [List.dropWhile_cons_of_pos hx] at h ⊢
      have hxs : xs ≠ [] := by
        intro he
        rw [he] at h
        simp [List.dropWhile] at h
      rw [ih h]
      cases xs with
      | nil => exact absurd rfl hxs
      | cons y ys => rw [List.getLast?_cons_cons]
    · rw [List.dropWhile_cons_of_neg hx]

/-- Decomposition produced by `pyStrip`: whitespace, the stripped core,
whitespace. -/
theorem pyStrip_decomp (s : List Char) :
    ∃ ws1 ws2, s = ws1 ++ pyStrip s ++ ws2 ∧
      (∀ c ∈ ws1, isPySpace c = true) ∧ (∀ c ∈ ws2, isPySpace c = true) := by
  refine ⟨s.takeWhile isPySpace,
    (((s.dropWhile isPySpace).reverse.takeWhile isPySpace)).reverse, ?_, ?_, ?_⟩
  · have h1 : s.dropWhile isPySpace =
        pyStrip s ++ ((s.dropWhile isPySpace).reverse.takeWhile isPySpace).reverse := by
      conv_lhs => rw [← List.reverse_reverse (s.dropWhile isPySpace),
        ← List.takeWhile_append_dropWhile isPySpace ((s.dropWhile isPySpace).reverse)]
      rw [List.reverse_append, pyStrip]
    conv_lhs => rw [← List.takeWhile_append_dropWhile isPySpace s, h1]
    rw [← List.append_assoc]
  · intro c hc
    exact List.mem_takeWhile_imp hc
  · intro c hc
    rw [List.mem_reverse] at hc
    exact List.mem_takeWhile_imp hc

/-- Everything in the stripped string was in the original. -/
theorem mem_of_mem_pyStrip {c : Char} {s : List Char}
    (h : c ∈ pyStrip s) : c ∈ s := by
  obtain ⟨ws1, ws2, he, -, -⟩ := pyStrip_decomp s
  rw [he]
  simp [h]

/-- A non-whitespace character survives stripping. -/
theorem mem_pyStrip_of_mem {c : Char} {s : List Char}
    (h : c ∈ s) (hc : isPySpace c = false) : c ∈ pyStrip s := by
  obtain ⟨ws1, ws2, he, h1, h2⟩ := pyStrip_decomp s
  rw [he] at h
  simp only [List.mem_append] at h
  rcases h with (h | h) | h
  · rw [h1 c h] at hc; cases hc
  · exact h
  · rw [h2 c h] at hc; cases hc

/-- `pyStrip` is the identity when both ends are not whitespace. -/
theorem pyStrip_eq_self (s : List Char)
    (hh : ∀ a, s.head? = some a → isPySpace a = false)
    (hl : ∀ a, s.getLast? = some a → isPySpace a = false) : pyStrip s = s := by
  rw [pyStrip, dropWhile_eq_self_of_head _ s hh,
    dropWhile_eq_self_of_head _ s.reverse (by
      intro a ha
      rw [List.head?_reverse] at ha
      exact hl a ha),
    List.reverse_reverse]

/-- The head of a stripped string is not whitespace. -/
theorem pyStrip_head_not_space (s : List Char) (a : Char)
    (h : (pyStrip s).head? = some a) : isPySpace a = false := by
  rw [pyStrip] at h
  have h1 : (((s.dropWhile isPySpace).reverse).dropWhile isPySpace).getLast? =
      some a := by
    rwa [List.head?_reverse] at h
  have hne : ((s.dropWhile isPySpace).reverse).dropWhile isPySpace ≠ [] := by
    intro he
    rw [he] at h1
    simp at h1
  rw [getLast_dropWhile _ _ hne, List.getLast?_reverse] at h1
  exact head_dropWhile_not _ _ a h1

/-- The last character of a stripped string is not whitespace. -/
theorem pyStrip_getLast_not_space (s : List Char) (a : Char)
    (h : (pyStrip s).getLast? = some a) : isPySpace a = false := by
  rw [pyStrip, List.getLast?_reverse] at h
  exact head_dropWhile_not _ _ a h

/-- `pyStrip` is idempotent. -/
theorem pyStrip_idem (s : List Char) : pyStrip (pyStrip s) = pyStrip s :=
  pyStrip_eq_self _ (pyStrip_head_not_space s) (pyStrip_getLast_not_space s)

/-- `pyStrip` is the identity on strings without whitespace. -/
theorem pyStrip_eq_self_of_no_space (s : List Char)
    (h : ∀ c ∈ s, isPySpace c = false) : pyStrip s = s :=
  pyStrip_eq_self s
    (fun a ha => h a (List.mem_of_mem_head? ha))
    (fun a ha => h a (by
      have : a ∈ s.reverse := List.mem_of_mem_head? (by rwa [List.head?_reverse])
      exact List.mem_reverse.mp this))

/-! ## The grammar of validator-accepted values -/

/-- Strings accepted by `validate_attribute_value`'s scanner: plain
characters, escaped specials, and escaped hex pairs. -/
inductive VStr : List Char → Prop where
  | nil : VStr []
  | plain (c : Char) (cs : List Char) :
      c ≠ '\\' → c ∉ anySpecials → VStr cs → VStr (c :: cs)
  | esc (c : Char) (cs : List Char) :
      c ∈ escSpecials → VStr cs → VStr ('\\' :: c :: cs)
  | eschex (h1 h2 : Char) (cs : List Char) :
      h1 ∈ hexdigits → h2 ∈ hexdigits → VStr cs → VStr ('\\' :: h1 :: h2 :: cs)

/-- Escapable specials are not hex digits. -/
theorem not_hex_of_escSpecial {c : Char} (h : c ∈ escSpecials) :
    c ∉ hexdigits := by
  fin_cases h <;> decide

/-- Bind in the `Except` monad returns `ok` only through `ok`. -/
theorem except_bind_ok {α β : Type} (m : Except PyErr α)
    (f : α → Except PyErr β) (r : β) :
    m >>= f = Except.ok r ↔ ∃ u, m = Except.ok u ∧ f u = Except.ok r := by
  cases m <;> simp [Bind.bind, Except.bind]

/-- Characterisation of the scanner step from `STATE_ANY`. -/
theorem vavStep_any_ok (c : Char) (st : State) :
    vavStep State.any c = Except.ok st ↔
      (c = '\\' ∧ st = State.escape) ∨
      (c ≠ '\\' ∧ c ∉ anySpecials ∧ st = State.any) := by
  rw [vavStep]
  split_ifs with h1 h2 <;> simp_all [eq_comm]

/-- Characterisation of the scanner step from `STATE_ESCAPE`. -/
theorem vavStep_escape_ok (c : Char) (st : State) :
    vavStep State.escape c = Except.ok st ↔
      (c ∈ hexdigits ∧ st = State.escapeHex) ∨
      (c ∉ hexdigits ∧ c ∈ escSpecials ∧ st = State.any) := by
  rw [vavStep]
  split_ifs with h1 h2 <;> simp_all [eq_comm]

/-- Characterisation of the scanner step from `STATE_ESCAPE_HEX`. -/
theorem vavStep_escapeHex_ok (c : Char) (st : State) :
    vavStep State.escapeHex c = Except.ok st ↔
      c ∈ hexdigits ∧ st = State.any := by
  rw [vavStep]
  split_ifs with h1 <;> simp_all [eq_comm]

/-- A full scan from `ANY` back to `ANY` yields a `VStr` derivation. -/
theorem vstr_of_run (v : List Char)
    (h : vavRun State.any v = Except.ok State.any) : VStr v := by
  have H : ∀ (n : Nat) (w : List Char), w.length ≤ n →
      vavRun State.any w = Except.ok State.any → VStr w := by
    intro n
    induction n with
    | zero =>
      intro w hlen hw
      have hw0 : w = [] := List.length_eq_zero.mp (by omega)
      subst hw0
      exact VStr.nil
    | succ n ih =>
      intro w hlen hw
      cases w with
      | nil => exact VStr.nil
      | cons c cs =>
        simp only [vavRun] at hw
        obtain ⟨st1, hstep1, hw⟩ := (except_bind_ok _ _ _).mp hw
        rcases (vavStep_any_ok c st1).mp hstep1 with ⟨rfl, rfl⟩ | ⟨hc1, hc2, rfl⟩
        · cases cs with
          | nil => simp [vavRun] at hw
          | cons c1 cs1 =>
            simp only [vavRun] at hw
            obtain ⟨st2, hstep2, hw⟩ := (except_bind_ok _ _ _).mp hw
            rcases (vavStep_escape_ok c1 st2).mp hstep2 with
              ⟨hh1, rfl⟩ | ⟨-, hsp, rfl⟩
            · cases cs1 with
              | nil => simp [vavRun] at hw
              | cons c2 cs2 =>
                simp only [vavRun] at hw
                obtain ⟨st3, hstep3, hw⟩ := (except_bind_ok _ _ _).mp hw
                obtain ⟨hh2, rfl⟩ := (vavStep_escapeHex_ok c2 st3).mp hstep3
                have hlen2 : cs2.length ≤ n := by
                  simp only [List.length_cons] at hlen
                  omega
                exact VStr.eschex c1 c2 cs2 hh1 hh2 (ih cs2 hlen2 hw)
            · have hlen2 : cs1.length ≤ n := by
                simp only [List.length_cons] at hlen
                omega
              exact VStr.esc c1 cs1 hsp (ih cs1 hlen2 hw)
        · have hlen2 : cs.length ≤ n := by
            simp only [List.length_cons] at hlen
            omega
          exact VStr.plain c cs hc1 hc2 (ih cs hlen2 hw)
  exact H v.length v le_rfl h

/-- The first character of a non-empty accepted value is not `#`. -/
theorem vstr_head_ne_hash (c0 : Char) (cs : List Char)
    (h : VStr (c0 :: cs)) : c0 ≠ '#' := by
  cases h with
  | plain _ _ h1 h2 _ =>
    intro he
    subst he
    exact h2 (by decide)
  | esc _ _ _ _ => decide
  | eschex _ _ _ _ _ _ => decide

/-- In an accepted value, every `=` is directly preceded by a backslash. -/
theorem vstr_eq_escaped (v : List Char) (hv : VStr v) :
    ∀ p q, v = p ++ '=' :: q → ∃ p2, p = p2 ++ ['\\'] := by
  induction hv with
  | nil =>
    intro p q hpq
    exact absurd hpq (by simp)
  | plain c cs hc1 hc2 _ ih =>
    intro p q hpq
    cases p with
    | nil =>
      simp only [List.nil_append, List.cons.injEq] at hpq
      rw [hpq.1] at hc2
      exact absurd (by decide) hc2
    | cons x p2 =>
      simp only [List.cons_append, List.cons.injEq] at hpq
      obtain ⟨-, h2⟩ := hpq
      obtain ⟨p3, hp3⟩ := ih p2 q h2
      exact ⟨x :: p3, by rw [hp3]; simp⟩
  | esc c cs hc _ ih =>
    intro p q hpq
    cases p with
    | nil =>
      simp only [List.nil_append, List.cons.injEq] at hpq
      exact absurd hpq.1 (by decide)
    | cons x p2 =>
      cases p2 with
      | nil =>
        simp only [List.cons_append, List.nil_append, List.cons.injEq] at hpq
        obtain ⟨hx, -, -⟩ := hpq
        exact ⟨[], by rw [← hx]; simp⟩
      | cons y p3 =>
        simp only [List.cons_append, List.cons.injEq] at hpq
        obtain ⟨-, -, h3⟩ := hpq
        obtain ⟨p4, hp4⟩ := ih p3 q h3
        exact ⟨x :: y :: p4, by rw [hp4]; simp⟩
  | eschex h1 h2 cs hh1 hh2 _ ih =>
    intro p q hpq
    cases p with
    | nil =>
      simp only [List.nil_append, List.cons.injEq] at hpq
      exact absurd hpq.1 (by decide)
    | cons x p2 =>
      cases p2 with
      | nil =>
        simp only [List.cons_append, List.nil_append, List.cons.injEq] at hpq
        obtain ⟨-, hq, -⟩ := hpq
        rw [hq] at hh1
        exact absurd hh1 (by decide)
      | cons y p3 =>
        cases p3 with
        | nil =>
          simp only [List.cons_append, List.nil_append, List.cons.injEq] at hpq
          obtain ⟨-, -, hq, -⟩ := hpq
          rw [hq] at hh2
          exact absurd hh2 (by decide)
        | cons z p4 =>
          simp only [List.cons_append, List.cons.injEq] at hpq
          obtain ⟨-, -, -, h4⟩ := hpq
          obtain ⟨p5, hp5⟩ := ih p4 q h4
          exact ⟨x :: y :: z :: p5, by rw [hp5]; simp⟩

/-! ## Extraction from accepted validator runs -/

/-- The (bugged) hex check never raises. -/
theorem vavHexCheck_ok : ∀ v : List Char, vavHexCheck v = Except.ok () := by
  intro v
  induction v with
  | nil => rfl
  | cons c cs ih =>
    rw [vavHexCheck, if_pos (by decide)]
    exact ih

/-- What acceptance of a non-empty value implies. -/
theorem validate_value_parts (c0 : Char) (cs : List Char)
    (h : validate_attribute_value (c0 :: cs) = Except.ok true) :
    c0 ≠ ' ' ∧ (c0 :: cs).getLast? ≠ some ' ' ∧
    vavRun State.any (c0 :: cs) = Except.ok State.any := by
  simp only [validate_attribute_value, vavHexCheck_ok] at h
  cases h6 : vavRun State.any (c0 :: cs) with
  | error e =>
    rw [h6] at h
    simp only [Bind.bind, Except.bind, throw, throwThe, MonadExceptOf.throw,
      pure, Except.pure] at h
    split_ifs at h
  | ok st =>
    rw [h6] at h
    simp only [Bind.bind, Except.bind, throw, throwThe, MonadExceptOf.throw,
      pure, Except.pure] at h
    split_ifs at h <;> simp_all

/-- Acceptance of the value implies validity of the scanner grammar. -/
theorem vstr_of_validate (v : List Char)
    (h : validate_attribute_value v = Except.ok true) : VStr v := by
  cases v with
  | nil => exact absurd h (by simp [validate_attribute_value])
  | cons c0 cs =>
    exact vstr_of_run _ (validate_value_parts c0 cs h).2.2

/-! ## Extraction from accepted attribute types -/

/-- The character loop of `validate_attribute_type` accepts only the
allowed characters. -/
theorem vatCharsCheck_mem :
    ∀ t : List Char, vatCharsCheck t = Except.ok () → ∀ c ∈ t, c ∈ typeChars := by
  intro t
  induction t with
  | nil => intro _ c hc; simp at hc
  | cons x xs ih =>
    intro h c hc
    rw [vatCharsCheck] at h
    by_cases hx : x ∈ typeChars
    · rw [if_pos hx] at h
      rcases List.mem_cons.mp hc with rfl | hc2
      · exact hx
      · exact ih h c hc2
    · rw [if_neg hx] at h
      cases h

/-- What acceptance of an attribute type implies. -/
theorem validate_type_parts (t : List Char)
    (h : validate_attribute_type t = Except.ok true) :
    t ≠ [] ∧ ∀ c ∈ t, c ∈ typeChars := by
  cases t with
  | nil => exact absurd h (by simp [validate_attribute_type])
  | cons x xs =>
    refine ⟨by simp, ?_⟩
    simp only [validate_attribute_type] at h
    cases hcc : vatCharsCheck (x :: xs) with
    | error e => rw [hcc] at h; simp [Bind.bind, Except.bind] at h
    | ok u =>
      cases u
      exact vatCharsCheck_mem _ hcc

/-! ## Escaping is the identity on accepted values -/

/-- Unrolling the escaper loop at the first character. -/
theorem escRun_cons (x : State × List Char × List Char) (c : Char)
    (cs : List Char) : escRun x (c :: cs) = escRun (escStep x c) cs := rfl

/-- Scanning an accepted value emits it verbatim and returns to `ANY`. -/
theorem escRun_vstr (v : List Char) (hv : VStr v) :
    ∀ esc0 buf0, ∃ buf1,
      escRun (State.any, esc0, buf0) v = (State.any, esc0 ++ v, buf1) := by
  induction hv with
  | nil =>
    intro esc0 buf0
    exact ⟨buf0, by simp [escRun]⟩
  | plain c cs hc1 hc2 _ ih =>
    intro esc0 buf0
    have hstep : escStep (State.any, esc0, buf0) c = (State.any, esc0 ++ [c], buf0) := by
      simp [escStep, hc1, hc2]
    rw [escRun_cons, hstep]
    obtain ⟨buf1, hb⟩ := ih (esc0 ++ [c]) buf0
    exact ⟨buf1, by rw [hb]; simp⟩
  | esc c cs hc _ ih =>
    intro esc0 buf0
    have hstep1 : escStep (State.any, esc0, buf0) '\\' = (State.escape, esc0, buf0) := by
      simp [escStep]
    have hstep2 : escStep (State.escape, esc0, buf0) c =
        (State.any, esc0 ++ ['\\', c], buf0) := by
      simp [escStep, not_hex_of_escSpecial hc, hc]
    rw [escRun_cons, hstep1, escRun_cons, hstep2]
    obtain ⟨buf1, hb⟩ := ih (esc0 ++ ['\\', c]) buf0
    exact ⟨buf1, by rw [hb]; simp⟩
  | eschex h1 h2 cs hh1 hh2 _ ih =>
    intro esc0 buf0
    have hstep1 : escStep (State.any, esc0, buf0) '\\' = (State.escape, esc0, buf0) := by
      simp [escStep]
    have hstep2 : escStep (State.escape, esc0, buf0) h1 =
        (State.escapeHex, esc0, [h1]) := by
      simp [escStep, hh1]
    have hstep3 : escStep (State.escapeHex, esc0, [h1]) h2 =
        (State.any, esc0 ++ ['\\', h1, h2], []) := by
      simp [escStep, hh2]
    rw [escRun_cons, hstep1, escRun_cons, hstep2, escRun_cons, hstep3]
    obtain ⟨buf1, hb⟩ := ih (esc0 ++ ['\\', h1, h2]) []
    exact ⟨buf1, by rw [hb]; simp⟩

/-- On a value the validator accepts, `escape_attribute_value` is the
identity. -/
theorem escape_of_valid (v : List Char)
    (h : validate_attribute_value v = Except.ok true) :
    escape_attribute_value v = Except.ok v := by
  cases v with
  | nil => exact absurd h (by simp [validate_attribute_value])
  | cons c0 cs =>
    obtain ⟨hsp, hlast, hrun⟩ := validate_value_parts c0 cs h
    have hv : VStr (c0 :: cs) := vstr_of_run _ hrun
    have hhash : c0 ≠ '#' := vstr_head_ne_hash c0 cs hv
    obtain ⟨buf1, hb⟩ := escRun_vstr _ hv [] []
    rw [escape_attribute_value, if_neg (fun hand => hhash hand.1)]
    simp only [hb, List.nil_append]
    rw [if_neg hsp, if_neg (fun hand => hlast hand.1)]

/-! ## Shape of split_ava results -/

/-- The fuel of `split_ava` as it is invoked is always sufficient. -/
theorem split_ava_eq_ok (ava : List Char) (escape strip : Bool)
    (r : Except PyErr (List Char × AvaValue))
    (h : split_ava ava escape strip = r) :
    split_ava_loop ava escape strip (ava.length + 1)
      (pyRFind ava '=' ava.length) = some r := by
  have hlt : (pyRFind ava '=' ava.length).toNat < ava.length + 1 := by
    have h0 := pyRFindN_lt ava '=' ava.length
    simp only [pyRFind, Int.toNat_natCast]
    omega
  obtain ⟨r2, hr2⟩ := Option.isSome_iff_exists.mp
    (split_ava_loop_isSome ava escape strip (ava.length + 1)
      (pyRFind ava '=' ava.length) (by omega))
  rw [split_ava, hr2] at h
  simp only [Option.getD_some] at h
  rw [hr2, h]

/-- A successful `split_ava` either found no unescaped `=` (empty type,
method object) or split at some positive position. -/
theorem split_ava_loop_shape (ava : List Char) (esc : Bool) :
    ∀ (fuel : Nat) (equal : Int) (t : List Char) (av : AvaValue),
      split_ava_loop ava esc true fuel equal = some (Except.ok (t, av)) →
      (t = [] ∧ av = AvaValue.stripMethod ava) ∨
      (∃ eq : Nat, 1 ≤ eq ∧ t = pyStrip (ava.take eq) ∧
        (esc = false → av = AvaValue.str (pyStrip (ava.drop (eq + 1))))) := by
  intro fuel
  induction fuel with
  | zero => intro equal t av h; cases h
  | succ n ih =>
    intro equal t av h
    rw [split_ava_loop] at h
    by_cases h1 : equal > 0
    · rw [if_pos h1] at h
      by_cases h2 : ava.get? (equal.toNat - 1) ≠ some '\\'
      · rw [if_pos h2] at h
        simp only [if_pos rfl, reduceIte] at h
        cases esc
        · simp only [Bool.false_eq_true, reduceIte, pure, Except.pure,
            Option.some.injEq, Except.ok.injEq, Prod.mk.injEq] at h
          obtain ⟨rfl, rfl⟩ := h
          exact Or.inr ⟨equal.toNat, by omega, rfl, fun _ => rfl⟩
        · simp only [reduceIte] at h
          cases hesc : escape_attribute_value (pyStrip (ava.drop (equal.toNat + 1))) with
          | error e =>
            rw [hesc] at h
            simp [Bind.bind, Except.bind] at h
          | ok v2 =>
            rw [hesc] at h
            simp only [Bind.bind, Except.bind, pure, Except.pure,
              Option.some.injEq, Except.ok.injEq, Prod.mk.injEq] at h
            obtain ⟨rfl, rfl⟩ := h
            exact Or.inr ⟨equal.toNat, by omega, rfl, fun hf => by cases hf⟩
      · rw [if_neg h2] at h
        exact ih _ t av h
    · rw [if_neg h1] at h
      simp only [pure, Except.pure, reduceIte, Option.some.injEq,
        Prod.mk.injEq, Except.ok.injEq] at h
      refine Or.inl ?_
      obtain ⟨rfl, rfl⟩ := h
      exact ⟨rfl, rfl⟩

/-- `split_ava` with escaping relates to `split_ava` without: same type,
value escaped. -/
theorem split_ava_loop_escape_agree (ava : List Char) :
    ∀ (fuel : Nat) (equal : Int) (t v : List Char),
      split_ava_loop ava false true fuel equal =
        some (Except.ok (t, AvaValue.str v)) →
      split_ava_loop ava true true fuel equal =
        some ((escape_attribute_value v).map
          (fun v2 => (t, AvaValue.str v2))) := by
  intro fuel
  induction fuel with
  | zero => intro equal t v h; cases h
  | succ n ih =>
    intro equal t v h
    rw [split_ava_loop] at h ⊢
    by_cases h1 : equal > 0
    · rw [if_pos h1] at h ⊢
      by_cases h2 : ava.get? (equal.toNat - 1) ≠ some '\\'
      · rw [if_pos h2] at h ⊢
        simp only [reduceIte, Bool.false_eq_true, pure, Except.pure,
          Option.some.injEq, Except.ok.injEq, Prod.mk.injEq] at h
        obtain ⟨rfl, rfl⟩ := h
        simp only [reduceIte, Option.some.injEq]
        cases hesc : escape_attribute_value (pyStrip (ava.drop (equal.toNat + 1))) <;>
          simp [hesc, Bind.bind, Except.bind, Except.map, pure, Except.pure]
      · rw [if_neg h2] at h ⊢
        exact ih _ t v h
    · rw [if_neg h1] at h
      simp only [pure, Except.pure, reduceIte, Option.some.injEq,
        Except.ok.injEq, Prod.mk.injEq] at h
      obtain ⟨-, h⟩ := h
      cases h

/-- `split_ava` with escaping, given the unescaped result. -/
theorem split_ava_escape_agree (ava t v : List Char)
    (h : split_ava ava false true = Except.ok (t, AvaValue.str v)) :
    split_ava ava true true =
      (escape_attribute_value v).map (fun v2 => (t, AvaValue.str v2)) := by
  have h2 := split_ava_eq_ok ava false true _ h
  have h3 := split_ava_loop_escape_agree ava _ _ t v h2
  rw [split_ava, h3]
  rfl

/-- The escape-flagged parse agrees with the plain parse whenever the
plain parse succeeds: each validated value escapes to itself. -/
theorem parse_dn_loop_escape_agree :
    ∀ (fuel : Nat) (dn : List Char) (acc l : List Ava),
      parse_dn_loop fuel dn false true acc = some (Except.ok l) →
      parse_dn_loop fuel dn true true acc = some (Except.ok l) := by
  intro fuel
  induction fuel with
  | zero => intro dn acc l h; cases h
  | succ n ih =>
    intro dn acc l h
    rw [parse_dn_loop] at h ⊢
    rcases hava : get_next_ava dn with ⟨ava, sep⟩
    simp only [hava] at h ⊢
    by_cases ha : ava = []
    · rwa [if_pos ha] at h ⊢
    · rw [if_neg ha] at h ⊢
      cases hsp : split_ava ava false true with
      | error e => simp [hsp] at h
      | ok p =>
        obtain ⟨t, av⟩ := p
        simp only [hsp] at h
        cases hvt : validate_attribute_type t with
        | error e => simp [hvt] at h
        | ok bt =>
          simp only [hvt] at h
          cases bt
          · simp [Bool.not_false, reduceIte] at h
          · simp only [Bool.not_true, Bool.false_eq_true, reduceIte] at h
            cases hvv : validate_attribute_value_ava av with
            | error e => simp [hvv] at h
            | ok bv =>
              simp only [hvv] at h
              cases bv
              · simp [Bool.not_false, reduceIte] at h
              · simp only [Bool.not_true, Bool.false_eq_true, reduceIte] at h
                cases av with
                | stripMethod m => exact absurd hvv (by simp [validate_attribute_value_ava])
                | str v =>
                  have hvv2 : validate_attribute_value v = Except.ok true := hvv
                  have hesc : escape_attribute_value v = Except.ok v :=
                    escape_of_valid v hvv2
                  have hsp2 : split_ava ava true true = Except.ok (t, AvaValue.str v) := by
                    rw [split_ava_escape_agree ava t v hsp, hesc]
                    rfl
                  simp only [hsp2, hvt, hvv, Bool.not_true, Bool.false_eq_true,
                    reduceIte]
                  exact ih _ _ l h

/-- Whole-function escape agreement. -/
theorem parse_dn_escape_agree (dn : List Char) (l : List Ava)
    (h : parse_dn dn false true = Except.ok l) :
    parse_dn dn true true = Except.ok l := by
  rw [parse_dn_eq_ok_iff] at h ⊢
  exact parse_dn_loop_escape_agree _ dn [] l h

/-! ## Reconstruction of the DN -/

/-- The string content of a parsed value (the bound-method case never
occurs in a successful parse). -/
def reconVal : AvaValue → List Char
  | AvaValue.str v => v
  | AvaValue.stripMethod _ => []

/-- `safe_dn`'s output: types, `=`, values and separators re-joined. -/
def recon : List Ava → List Char
  | [] => []
  | x :: rest => x.1 ++ '=' :: reconVal x.2.1 ++ x.2.2 ++ recon rest

/-- The fold inside `safe_dn` computes `recon`. -/
theorem foldlM_recon :
    ∀ (l : List Ava) (acc : List Char),
      (∀ x ∈ l, ∃ v, x.2.1 = AvaValue.str v) →
      List.foldlM safe_dn_step acc l =
        (Except.ok (acc ++ recon l) : Except PyErr (List Char)) := by
  intro l
  induction l with
  | nil => intro acc _; simp [recon, pure, Except.pure]
  | cons x rest ih =>
    intro acc hstr
    obtain ⟨v, hv⟩ := hstr x (by simp)
    have hstep : safe_dn_step acc x =
        Except.ok (acc ++ x.1 ++ '=' :: v ++ x.2.2) := by
      rw [safe_dn_step, hv]
      rfl
    rw [List.foldlM_cons, hstep]
    simp only [Bind.bind, Except.bind]
    rw [ih _ (fun y hy => hstr y (by simp [hy]))]
    simp only [recon, hv, reconVal]
    simp [List.append_assoc]

/-- `safe_dn` computes the reconstruction of the escape-flagged parse. -/
theorem safe_dn_eq_recon (dn : List Char) (l : List Ava)
    (h : parse_dn dn true true = Except.ok l)
    (hstr : ∀ x ∈ l, ∃ v, x.2.1 = AvaValue.str v) :
    safe_dn dn = Except.ok (recon l) := by
  rw [safe_dn, h]
  simp only [Bind.bind, Except.bind]
  rw [foldlM_recon l [] hstr]
  simp

/-! ## Branch analysis of get_next_ava -/

/-- The `'+'` outcome of `get_next_ava`. -/
theorem get_next_ava_plus (dn ava : List Char)
    (h : get_next_ava dn = (ava, ['+'])) :
    pyFind dn '+' > 0 ∧ pyFind dn '+' < pyFind dn ',' ∧
    pyFindRange dn '=' (pyFind dn '+') (pyFind dn ',') > 0 ∧
    ava = dn.take (pyFind dn '+').toNat := by
  simp only [get_next_ava] at h
  split_ifs at h with h1 h2 h3 <;> cases h
  exact ⟨h1.1, h1.2, h2, rfl⟩

/-- The `','` outcome of `get_next_ava`. -/
theorem get_next_ava_comma (dn ava : List Char)
    (h : get_next_ava dn = (ava, [','])) :
    pyFind dn ',' > 0 ∧ ava = dn.take (pyFind dn ',').toNat ∧
    (¬(pyFind dn '+' > 0 ∧ pyFind dn '+' < pyFind dn ',') ∨
      (pyFind dn '+' > 0 ∧ pyFind dn '+' < pyFind dn ',' ∧
        pyFindRange dn '=' (pyFind dn '+') (pyFind dn ',') ≤ 0)) := by
  simp only [get_next_ava] at h
  split_ifs at h with h1 h2 h3 <;> cases h
  · exact ⟨by omega, rfl, Or.inr ⟨h1.1, h1.2, by omega⟩⟩
  · exact ⟨h3, rfl, Or.inl h1⟩

/-- The `''` outcome of `get_next_ava`. -/
theorem get_next_ava_empty (dn ava : List Char)
    (h : get_next_ava dn = (ava, [])) :
    ava = dn ∧ pyFind dn ',' ≤ 0 := by
  simp only [get_next_ava] at h
  split_ifs at h with h1 h2 h3 <;> cases h
  exact ⟨rfl, by omega⟩

/-- Taking at least one element preserves the head. -/
theorem head_take (s : List Char) (m : Nat) (hm : 1 ≤ m) :
    (s.take m).head? = s.head? := by
  cases s with
  | nil => simp
  | cons c cs =>
    cases m with
    | zero => omega
    | succ m2 => simp

/-- In a validated parse step, a non-whitespace head of the AVA lands in
the attribute type, hence is an allowed type character. -/
theorem parse_head_type (ava t : List Char) (av : AvaValue) (e : Bool)
    (hsp : split_ava ava e true = Except.ok (t, av))
    (hvt : validate_attribute_type t = Except.ok true)
    (c : Char) (hc : ava.head? = some c) (hcs : isPySpace c = false) :
    c ∈ typeChars := by
  rcases split_ava_loop_shape ava e _ _ t av (split_ava_eq_ok ava e true _ hsp) with
    ⟨rfl, -⟩ | ⟨eq, heq1, rfl, -⟩
  · exact absurd hvt (by simp [validate_attribute_type])
  · cases ava with
    | nil => simp at hc
    | cons a0 rest =>
      simp only [List.head?_cons, Option.some.injEq] at hc
      subst hc
      have hmem : a0 ∈ (a0 :: rest).take eq := by
        cases eq with
        | zero => omega
        | succ m2 => simp
      have hmem2 : a0 ∈ pyStrip ((a0 :: rest).take eq) :=
        mem_pyStrip_of_mem hmem hcs
      exact (validate_type_parts _ hvt).2 a0 hmem2

/-- No `=` occurs in the value after any `+` (for comma-separated AVAs). -/
def NoEqAfterPlus (v : List Char) : Prop :=
  ∀ a b, v = a ++ '+' :: b → '=' ∉ b

/-- The split positions of a successful plain `split_ava` with a string
value. -/
theorem split_ava_str_shape (ava t v : List Char)
    (hsp : split_ava ava false true = Except.ok (t, AvaValue.str v)) :
    ∃ eq : Nat, 1 ≤ eq ∧ t = pyStrip (ava.take eq) ∧
      v = pyStrip (ava.drop (eq + 1)) := by
  rcases split_ava_loop_shape ava false _ _ t (AvaValue.str v)
      (split_ava_eq_ok ava false true _ hsp) with ⟨-, hm⟩ | ⟨eq, h1, h2, hv⟩
  · cases hm
  · have hv2 := hv rfl
    simp only [AvaValue.str.injEq] at hv2
    exact ⟨eq, h1, h2, hv2⟩

/-- The value produced by `split_ava` draws its characters from the AVA. -/
theorem split_ava_value_subset (ava t v : List Char)
    (hsp : split_ava ava false true = Except.ok (t, AvaValue.str v)) :
    ∀ c ∈ v, c ∈ ava := by
  obtain ⟨eq, -, -, hveq⟩ := split_ava_str_shape ava t v hsp
  intro c hcv
  rw [hveq] at hcv
  exact List.drop_subset _ _ (mem_of_mem_pyStrip hcv)

/-- A successful step never has an AVA starting with a character that the
type validator rejects (such as `','` or `'+'`). -/
theorem parse_head_not_special (dn ava t : List Char) (av : AvaValue)
    (hsp : split_ava ava false true = Except.ok (t, av))
    (hvt : validate_attribute_type t = Except.ok true)
    (c : Char) (hc : dn.head? = some c) (hcs : isPySpace c = false)
    (hnc : c ∉ typeChars) (m : Nat) (hm : 1 ≤ m)
    (hava : ava = dn.take m) : False := by
  have hheadava : ava.head? = some c := by
    rw [hava, head_take dn m hm]
    exact hc
  exact hnc (parse_head_type ava t av false hsp hvt c hheadava hcs)

/-- In a comma-separated accepted step, the value has no `=` after any
`+`: otherwise `get_next_ava` would have split at the `+` instead. -/
theorem step_noEqAfterPlus (dn ava t v : List Char) (av : AvaValue)
    (hav : av = AvaValue.str v)
    (hava : get_next_ava dn = (ava, [',']))
    (hsp : split_ava ava false true = Except.ok (t, av))
    (hvt : validate_attribute_type t = Except.ok true) :
    NoEqAfterPlus v := by
  subst hav
  intro a b hvab hmemb
  obtain ⟨hcpos, hava2, hbr⟩ := get_next_ava_comma dn ava hava
  obtain ⟨eq, heq1, -, hveq⟩ := split_ava_str_shape ava t v hsp
  obtain ⟨ws1, ws2, hdec, -, -⟩ := pyStrip_decomp (ava.drop (eq + 1))
  rw [← hveq, hvab] at hdec
  have havadec : ava = (ava.take (eq + 1) ++ (ws1 ++ a)) ++ '+' :: (b ++ ws2) := by
    conv_lhs => rw [← List.take_append_drop (eq + 1) ava]
    rw [hdec]
    simp [List.append_assoc]
  have hcomma_len : (pyFind dn ',').toNat ≤ dn.length :=
    le_of_lt (pyFind_get dn ',' (by omega)).1
  have hlen_ava : ava.length = (pyFind dn ',').toNat := by
    rw [hava2, List.length_take]
    omega
  have hdndec : dn = (ava.take (eq + 1) ++ (ws1 ++ a)) ++
      '+' :: ((b ++ ws2) ++ dn.drop (pyFind dn ',').toNat) := by
    conv_lhs => rw [← List.take_append_drop (pyFind dn ',').toNat dn]
    rw [← hava2]
    conv_lhs => rw [havadec]
    simp [List.append_assoc]
  have hple : pyFind dn '+' ≠ -1 ∧
      pyFind dn '+' ≤ ((ava.take (eq + 1) ++ (ws1 ++ a)).length : Int) := by
    have h0 := pyFind_le_append (ava.take (eq + 1) ++ (ws1 ++ a))
      ((b ++ ws2) ++ dn.drop (pyFind dn ',').toNat) '+'
    rw [← hdndec] at h0
    exact h0
  have hplus_nonneg : 0 ≤ pyFind dn '+' := by
    rcases pyFindAux_ge '+' dn 0 with hf | hf
    · exact absurd hf hple.1
    · exact hf
  have hplus_pos : 0 < pyFind dn '+' := by
    rcases lt_or_eq_of_le hplus_nonneg with h0 | h0
    · exact h0
    · exfalso
      obtain ⟨-, hget⟩ := pyFind_get dn '+' (by omega)
      rw [← h0] at hget
      have hhead : dn.head? = some '+' := by
        cases dn with
        | nil => simp at hget
        | cons a0 r => simpa using hget
      exact parse_head_not_special dn ava t (AvaValue.str v) hsp hvt '+'
        hhead (by decide) (by decide) (pyFind dn ',').toNat (by omega) hava2
  have hP_lt : (ava.take (eq + 1) ++ (ws1 ++ a)).length < ava.length := by
    conv_rhs => rw [havadec]
    simp
  have hplus_lt : pyFind dn '+' < pyFind dn ',' := by
    have h1 : pyFind dn '+' < (ava.length : Int) := by
      have := hple.2
      omega
    rw [hlen_ava] at h1
    omega
  rcases hbr with hbr | hbr
  · exact hbr ⟨hplus_pos, hplus_lt⟩
  · -- the '=' inside b lies in the searched range, contradiction
    obtain ⟨-, -, hle⟩ := hbr
    have hplusNat : (pyFind dn '+').toNat ≤ (ava.take (eq + 1) ++ (ws1 ++ a)).length := by
      have := hple.2
      omega
    have hmem_drop : '=' ∈ ava.drop (pyFind dn '+').toNat := by
      have hsplit : ava.drop (pyFind dn '+').toNat =
          (ava.take (eq + 1) ++ (ws1 ++ a)).drop (pyFind dn '+').toNat ++
          '+' :: (b ++ ws2) := by
        conv_lhs => rw [havadec]
        rw [List.drop_append_eq_append_drop]
        have h0 : (pyFind dn '+').toNat - (ava.take (eq + 1) ++ (ws1 ++ a)).length = 0 := by
          omega
        rw [h0, List.drop_zero]
      rw [hsplit]
      simp [hmemb]
    have hmem_reg : '=' ∈ (dn.take (pyFind dn ',').toNat).drop (pyFind dn '+').toNat := by
      rw [hava2] at hmem_drop
      exact hmem_drop
    rcases pyFindAux_ge '=' ((dn.take (pyFind dn ',').toNat).drop (pyFind dn '+').toNat)
        (pyFind dn '+').toNat with hf | hf
    · exact (pyFindAux_eq_neg_one_iff '=' _ _).mp hf hmem_reg
    · have : pyFindRange dn '=' (pyFind dn '+') (pyFind dn ',') > 0 := by
        rw [pyFindRange]
        omega
      omega

/-- In an accepted step, the value contains no comma. -/
theorem step_no_comma (dn ava t v : List Char) (av : AvaValue) (sep : List Char)
    (hav : av = AvaValue.str v)
    (hava : get_next_ava dn = (ava, sep))
    (hsp : split_ava ava false true = Except.ok (t, av))
    (hvt : validate_attribute_type t = Except.ok true) :
    ',' ∉ v := by
  subst hav
  intro hcv
  have hcava : ',' ∈ ava := split_ava_value_subset ava t v hsp ',' hcv
  rcases get_next_ava_sep dn with hG | hG | hG <;> rw [hava] at hG <;>
    simp only at hG <;> subst hG
  · -- separator '': the whole remaining string, which has no comma past 0
    obtain ⟨rfl, hcomma⟩ := get_next_ava_empty dn ava hava
    rcases pyFindAux_ge ',' ava 0 with hf | hf
    · exact (pyFind_eq_neg_one_iff ava ',').mp hf hcava
    · have hf0 : pyFind ava ',' = 0 := by
        simp only [pyFind] at hf hcomma ⊢
        omega
      obtain ⟨-, hget⟩ := pyFind_get ava ',' (by omega)
      rw [hf0] at hget
      have hhead : ava.head? = some ',' := by
        cases ava with
        | nil => simp at hget
        | cons a0 r => simpa using hget
      exact absurd (parse_head_type ava t (AvaValue.str v) false hsp hvt
        ',' hhead (by decide)) (by decide)
  · -- separator ','
    obtain ⟨hcpos, hava2, -⟩ := get_next_ava_comma dn ava hava
    rw [hava2] at hcava
    exact not_mem_take_of_pyFind dn ',' _
      (Or.inr (by rw [Int.toNat_of_nonneg (by omega)])) hcava
  · -- separator '+'
    obtain ⟨hppos, hplt, -, hava2⟩ := get_next_ava_plus dn ava hava
    rw [hava2] at hcava
    exact not_mem_take_of_pyFind dn ',' _
      (Or.inr (by rw [Int.toNat_of_nonneg (by omega)]; omega)) hcava

/-- In a plus-separated accepted step, the value contains no plus. -/
theorem step_no_plus (dn ava t v : List Char) (av : AvaValue)
    (hav : av = AvaValue.str v)
    (hava : get_next_ava dn = (ava, ['+']))
    (hsp : split_ava ava false true = Except.ok (t, av)) :
    '+' ∉ v := by
  subst hav
  intro hcv
  have hcava : '+' ∈ ava := split_ava_value_subset ava t v hsp '+' hcv
  obtain ⟨hppos, -, -, hava2⟩ := get_next_ava_plus dn ava hava
  rw [hava2] at hcava
  exact not_mem_take_of_pyFind dn '+' _
    (Or.inr (by rw [Int.toNat_of_nonneg (by omega)])) hcava

/-- What one accepted parse step guarantees about its value, relative to
its separator. -/
theorem step_canonAva (dn ava t : List Char) (av : AvaValue) (sep : List Char)
    (hava : get_next_ava dn = (ava, sep))
    (hsp : split_ava ava false true = Except.ok (t, av))
    (hvt : validate_attribute_type t = Except.ok true)
    (hvv : validate_attribute_value_ava av = Except.ok true) :
    ∃ v, av = AvaValue.str v ∧ validate_attribute_value v = Except.ok true ∧
      pyStrip v = v ∧ ',' ∉ v ∧
      (sep = [','] → NoEqAfterPlus v) ∧ (sep = ['+'] → '+' ∉ v) := by
  cases av with
  | stripMethod m => exact absurd hvv (by simp [validate_attribute_value_ava])
  | str v =>
    obtain ⟨eq, -, -, hveq⟩ := split_ava_str_shape ava t v hsp
    refine ⟨v, rfl, hvv, by rw [hveq]; exact pyStrip_idem _,
      step_no_comma dn ava t v _ sep rfl hava hsp hvt, ?_, ?_⟩
    · intro hsep
      subst hsep
      exact step_noEqAfterPlus dn ava t v _ rfl hava hsp hvt
    · intro hsep
      subst hsep
      exact step_no_plus dn ava t v _ rfl hava hsp

/-! ## The canonical-form invariant of parse results -/

/-- The per-AVA invariant every accepted parse (plain flags) establishes. -/
def CanonAva (x : Ava) : Prop :=
  ∃ v, x.2.1 = AvaValue.str v ∧
    validate_attribute_type x.1 = Except.ok true ∧
    validate_attribute_value v = Except.ok true ∧
    pyStrip v = v ∧ ',' ∉ v ∧
    (x.2.2 = [','] → NoEqAfterPlus v) ∧ (x.2.2 = ['+'] → '+' ∉ v)

/-- Some AVA of the list carries a comma separator. -/
def hasCommaSep (l : List Ava) : Prop := ∃ x ∈ l, x.2.2 = [',']

/-- The separator structure of an accepted parse: non-final separators are
`','` or `'+'`, a `'+'` is eventually followed by a `','`, and the final
separator is `''` or `','`. -/
def CanonSeps : List Ava → Prop
  | [] => True
  | [x] => x.2.2 = [] ∨ x.2.2 = [',']
  | x :: y :: rest =>
    (x.2.2 = [','] ∨ (x.2.2 = ['+'] ∧ hasCommaSep (y :: rest))) ∧
    CanonSeps (y :: rest)

/-- Canonical form of a parse result. -/
def Canon (l : List Ava) : Prop := (∀ x ∈ l, CanonAva x) ∧ CanonSeps l

/-- An empty AVA only comes from an empty remaining string. -/
theorem get_next_ava_nil_of_ava_nil (dn sep : List Char)
    (h : get_next_ava dn = ([], sep)) : dn = [] := by
  by_contra hne
  simp only [get_next_ava] at h
  split_ifs at h with h1 h2 h3
  · injection h with h3 h4
    have h5 := congrArg List.length h3
    rw [List.length_take] at h5
    simp only [List.length_nil] at h5
    have hk : 1 ≤ (pyFind dn '+').toNat := by omega
    exact hne (List.length_eq_zero.mp (by omega))
  · injection h with h3 h4
    have h5 := congrArg List.length h3
    rw [List.length_take] at h5
    simp only [List.length_nil] at h5
    have hk : 1 ≤ (pyFind dn ',').toNat := by omega
    exact hne (List.length_eq_zero.mp (by omega))
  · injection h with h3 h4
    have h5 := congrArg List.length h3
    rw [List.length_take] at h5
    simp only [List.length_nil] at h5
    have hk : 1 ≤ (pyFind dn ',').toNat := by omega
    exact hne (List.length_eq_zero.mp (by omega))
  · injection h with h3 h4
    exact hne h3

/-- Every accepted plain parse produces a canonical list, and a comma in
the input guarantees a comma separator in the output. -/
theorem parse_dn_loop_canon :
    ∀ (fuel : Nat) (dn : List Char) (acc l : List Ava),
      parse_dn_loop fuel dn false true acc = some (Except.ok l) →
      ∃ tail, l = acc ++ tail ∧ (∀ x ∈ tail, CanonAva x) ∧ CanonSeps tail ∧
        (',' ∈ dn → hasCommaSep tail) := by
  intro fuel
  induction fuel with
  | zero => intro dn acc l h; cases h
  | succ n ih =>
    intro dn acc l h
    rw [parse_dn_loop] at h
    rcases hava : get_next_ava dn with ⟨ava, sep⟩
    simp only [hava] at h
    by_cases ha : ava = []
    · rw [if_pos ha] at h
      cases h
      refine ⟨[], by simp, by simp, trivial, ?_⟩
      intro hcm
      subst ha
      rw [get_next_ava_nil_of_ava_nil dn sep hava] at hcm
      simp at hcm
    · rw [if_neg ha] at h
      cases hsp : split_ava ava false true with
      | error e => simp [hsp] at h
      | ok p =>
        obtain ⟨t, av⟩ := p
        simp only [hsp] at h
        cases hvt : validate_attribute_type t with
        | error e => simp [hvt] at h
        | ok bt =>
          simp only [hvt] at h
          cases bt
          · simp [reduceIte] at h
          · simp only [Bool.not_true, Bool.false_eq_true, reduceIte] at h
            cases hvv : validate_attribute_value_ava av with
            | error e => simp [hvv] at h
            | ok bv =>
              simp only [hvv] at h
              cases bv
              · simp [reduceIte] at h
              · simp only [Bool.not_true, Bool.false_eq_true, reduceIte] at h
                have hca : CanonAva (t, av, sep) := by
                  obtain ⟨v, hv1, hv2, hv3, hv4, hv5, hv6⟩ :=
                    step_canonAva dn ava t av sep hava hsp hvt hvv
                  exact ⟨v, hv1, hvt, hv2, hv3, hv4, hv5, hv6⟩
                rcases get_next_ava_sep dn with hG | hG | hG <;>
                  rw [hava] at hG <;> simp only at hG <;> subst hG
                · -- separator '': last AVA
                  obtain ⟨hd, hcomma⟩ := get_next_ava_empty dn ava hava
                  have hdrop : dn.drop (ava.length + 1) = [] := by
                    rw [hd]
                    simp [List.drop_eq_nil_iff]
                  rw [hdrop] at h
                  have hl : l = acc ++ [(t, av, [])] :=
                    parse_dn_loop_nil n false true _ l h
                  refine ⟨[(t, av, [])], hl, ?_, Or.inl rfl, ?_⟩
                  · intro x hx
                    rcases List.mem_cons.mp hx with rfl | hx2
                    · exact hca
                    · simp at hx2
                  · intro hcm
                    exfalso
                    have hnn : 0 ≤ pyFind dn ',' := pyFind_nonneg_of_mem dn ',' hcm
                    have h0 : pyFind dn ',' = 0 := by omega
                    obtain ⟨-, hget⟩ := pyFind_get dn ',' (by omega)
                    rw [h0] at hget
                    have hhead : ava.head? = some ',' := by
                      rw [hd]
                      cases dn with
                      | nil => simp at hget
                      | cons a0 r => simpa using hget
                    exact absurd (parse_head_type ava t av false hsp hvt
                      ',' hhead (by decide)) (by decide)
                · -- separator ','
                  obtain ⟨tail2, hl, hmem, hseps, -⟩ := ih _ _ l h
                  refine ⟨(t, av, [',']) :: tail2, by simpa using hl, ?_, ?_, ?_⟩
                  · intro x hx
                    rcases List.mem_cons.mp hx with rfl | hx2
                    · exact hca
                    · exact hmem x hx2
                  · cases tail2 with
                    | nil => exact Or.inr rfl
                    | cons y rest => exact ⟨Or.inl rfl, hseps⟩
                  · intro hcm
                    exact ⟨(t, av, [',']), by simp, rfl⟩
                · -- separator '+': a comma follows in the remainder
                  obtain ⟨hppos, hplt, -, hava2⟩ := get_next_ava_plus dn ava hava
                  obtain ⟨tail2, hl, hmem, hseps, hcomma⟩ := ih _ _ l h
                  have hcnn : 0 ≤ pyFind dn ',' := by omega
                  obtain ⟨hclt, hcget⟩ := pyFind_get dn ',' hcnn
                  obtain ⟨hplt2, -⟩ := pyFind_get dn '+' (by omega)
                  have hlenava : ava.length = (pyFind dn '+').toNat := by
                    rw [hava2, List.length_take]
                    omega
                  have hmemdn2 : ',' ∈ dn.drop (ava.length + 1) := by
                    have hk : (pyFind dn '+').toNat + 1 ≤ (pyFind dn ',').toNat := by
                      omega
                    have := List.get?_drop dn (ava.length + 1)
                      ((pyFind dn ',').toNat - ((pyFind dn '+').toNat + 1))
                    rw [hlenava] at this ⊢
                    rw [show (pyFind dn '+').toNat + 1 +
                        ((pyFind dn ',').toNat - ((pyFind dn '+').toNat + 1)) =
                        (pyFind dn ',').toNat by omega] at this
                    rw [hcget] at this
                    exact List.get?_mem this
                  have hctail := hcomma hmemdn2
                  refine ⟨(t, av, ['+']) :: tail2, by simpa using hl, ?_, ?_, ?_⟩
                  · intro x hx
                    rcases List.mem_cons.mp hx with rfl | hx2
                    · exact hca
                    · exact hmem x hx2
                  · cases tail2 with
                    | nil =>
                      obtain ⟨z, hz, -⟩ := hctail
                      simp at hz
                    | cons y rest => exact ⟨Or.inr ⟨rfl, hctail⟩, hseps⟩
                  · intro hcm
                    obtain ⟨z, hz, hz2⟩ := hctail
                    exact ⟨z, by simp [hz], hz2⟩

/-- Accepted plain parses are canonical. -/
theorem parse_canon (dn : List Char) (l : List Ava)
    (h : parse_dn dn false true = Except.ok l) : Canon l := by
  rw [parse_dn_eq_ok_iff] at h
  obtain ⟨tail, hl, hmem, hseps, -⟩ :=
    parse_dn_loop_canon (dn.length + 1) dn [] l h
  simp only [List.nil_append] at hl
  subst hl
  exact ⟨hmem, hseps⟩

/-! ## Splitting a reconstructed AVA -/

/-- Facts about an accepted attribute type, bundled. -/
theorem type_facts (t : List Char)
    (hvt : validate_attribute_type t = Except.ok true) :
    t ≠ [] ∧ ',' ∉ t ∧ '+' ∉ t ∧ '=' ∉ t ∧ '\\' ∉ t ∧ pyStrip t = t ∧
    ∀ c ∈ t, c ∈ typeChars := by
  obtain ⟨hne, hmem⟩ := validate_type_parts t hvt
  have hsp : ∀ c ∈ typeChars, isPySpace c = false := by decide
  refine ⟨hne, fun h => ?_, fun h => ?_, fun h => ?_, fun h => ?_, ?_, hmem⟩
  · exact absurd (hmem ',' h) (by decide)
  · exact absurd (hmem '+' h) (by decide)
  · exact absurd (hmem '=' h) (by decide)
  · exact absurd (hmem '\\' h) (by decide)
  · exact pyStrip_eq_self_of_no_space t (fun c hc => hsp c (hmem c hc))

/-- An accepted value is non-empty. -/
theorem value_ne_nil (v : List Char)
    (hvv : validate_attribute_value v = Except.ok true) : v ≠ [] := by
  intro he
  rw [he] at hvv
  simp [validate_attribute_value] at hvv

/-- `get?` inside the type part of a reconstructed AVA. -/
theorem recon_get_sep (t v : List Char) :
    (t ++ '=' :: v).get? t.length = some '=' := by
  rw [List.get?_append_right (le_refl t.length)]
  simp

/-- The loop of `split_ava` on a reconstructed AVA lands exactly on the
separator `=`: every `=` inside the value is escaped and gets skipped. -/
theorem split_recon_loop (t v : List Char)
    (hvt : validate_attribute_type t = Except.ok true)
    (hvv : validate_attribute_value v = Except.ok true) :
    ∀ j : Nat, t.length < j → j ≤ (t ++ '=' :: v).length →
      ∀ fuel : Nat, (pyRFindN (t ++ '=' :: v) '=' j).toNat < fuel →
        split_ava_loop (t ++ '=' :: v) false true fuel
            (pyRFindN (t ++ '=' :: v) '=' j) =
          some (Except.ok (pyStrip t, AvaValue.str (pyStrip v))) := by
  obtain ⟨htne, -, -, -, hbs, -, htmem⟩ := type_facts t hvt
  have hvstr := vstr_of_validate v hvv
  have ht1 : 0 < t.length := List.length_pos.mpr htne
  intro j
  induction j using Nat.strong_induction_on with
  | _ j ih =>
    intro hjt hjlen fuel hfuel
    have hsep : (t ++ '=' :: v).get? t.length = some '=' := recon_get_sep t v
    have hge : (t.length : Int) ≤ pyRFindN (t ++ '=' :: v) '=' j :=
      pyRFindN_ge_of_get _ '=' j t.length hsep hjt
    have hnn : 0 ≤ pyRFindN (t ++ '=' :: v) '=' j := by
      have : (0 : Int) ≤ t.length := by positivity
      omega
    have hget := pyRFindN_get (t ++ '=' :: v) '=' j hnn
    have hlt := pyRFindN_lt (t ++ '=' :: v) '=' j
    cases fuel with
    | zero => omega
    | succ n =>
      rw [split_ava_loop]
      rw [if_pos (by omega)]
      by_cases hcase : (pyRFindN (t ++ '=' :: v) '=' j).toNat = t.length
      · -- landed on the separator: the previous character belongs to the
        -- type and is not a backslash
        have hprev : (t ++ '=' :: v).get? ((pyRFindN (t ++ '=' :: v) '=' j).toNat - 1) ≠
            some '\\' := by
          rw [hcase]
          intro hcon
          have h1 : 1 ≤ t.length := by
            cases t with
            | nil => exact absurd rfl htne
            | cons a r => simp
          rw [List.get?_append (by omega)] at hcon
          have := List.get?_mem hcon
          exact absurd (htmem '\\' this) (by decide)
        rw [if_pos hprev]
        simp only [reduceIte, Bool.false_eq_true]
        rw [hcase]
        rw [List.take_left, show (t ++ '=' :: v).drop (t.length + 1) = v by
          rw [List.drop_append_eq_append_drop]
          simp]
        rfl
      · -- landed on an escaped '=' inside the value: skip it
        have hgt : t.length < (pyRFindN (t ++ '=' :: v) '=' j).toNat := by omega
        set e := (pyRFindN (t ++ '=' :: v) '=' j).toNat with he
        have hk : v.get? (e - t.length - 1) = some '=' := by
          have h5 := hget
          rw [List.get?_append_right (by omega)] at h5
          have hE : e - t.length = (e - t.length - 1) + 1 := by omega
          rw [hE] at h5
          simp only [List.get?_cons_succ] at h5
          exact h5
        have hdecomp : v = v.take (e - t.length - 1) ++ '=' :: v.drop (e - t.length) := by
          have := eq_take_cons_drop v (e - t.length - 1) '=' hk
          rw [show e - t.length - 1 + 1 = e - t.length by omega] at this
          exact this
        obtain ⟨p2, hp2⟩ := vstr_eq_escaped v hvstr _ _ hdecomp
        have hklen : e - t.length - 1 < v.length := by
          have h2 := congrArg List.length hdecomp
          simp only [List.length_append, List.length_cons, List.length_take,
            List.length_drop] at h2
          omega
        have hk1 : 1 ≤ e - t.length - 1 := by
          have h6 : 1 ≤ (v.take (e - t.length - 1)).length := by
            rw [hp2]
            simp
          rw [List.length_take] at h6
          omega
        have hprev : (t ++ '=' :: v).get? (e - 1) = some '\\' := by
          have hp2len : (v.take (e - t.length - 1)).length = e - t.length - 1 := by
            rw [List.length_take]
            omega
          have hp2get : (v.take (e - t.length - 1)).get? (e - t.length - 2) =
              some '\\' := by
            rw [hp2]
            have hlp2 : p2.length = e - t.length - 2 := by
              have := congrArg List.length hp2
              rw [hp2len] at this
              simp only [List.length_append, List.length_cons, List.length_nil] at this
              omega
            rw [List.get?_append_right (by omega)]
            rw [hlp2]
            simp
          have hvget : v.get? (e - t.length - 2) = some '\\' := by
            have h3 : e - t.length - 2 < e - t.length - 1 := by omega
            rw [← List.get?_take h3]
            exact hp2get
          rw [List.get?_append_right (by omega)]
          have hE : e - 1 - t.length = (e - t.length - 2) + 1 := by omega
          rw [hE]
          simp only [List.get?_cons_succ]
          exact hvget
        rw [if_neg (by
          rw [show e - 1 = (pyRFindN (t ++ '=' :: v) '=' j).toNat - 1 from rfl] at hprev
          simp only [hprev, ne_eq, not_true_eq_false, not_false_eq_true])]
        have hnext := ih e (by omega) (by omega) (by omega) n (by
          have := pyRFindN_lt (t ++ '=' :: v) '=' e
          omega)
        exact hnext

/-- `split_ava` on a reconstructed AVA recovers the type and value. -/
theorem split_recon (t v : List Char)
    (hvt : validate_attribute_type t = Except.ok true)
    (hvv : validate_attribute_value v = Except.ok true)
    (hst : pyStrip v = v) :
    split_ava (t ++ '=' :: v) false true = Except.ok (t, AvaValue.str v) := by
  obtain ⟨htne, -, -, -, -, hts, -⟩ := type_facts t hvt
  have hvne : v ≠ [] := value_ne_nil v hvv
  have hlen : t.length < (t ++ '=' :: v).length := by
    simp
  have hmain := split_recon_loop t v hvt hvv (t ++ '=' :: v).length hlen
    (le_refl _) ((t ++ '=' :: v).length + 1)
    (by
      have := pyRFindN_lt (t ++ '=' :: v) '=' (t ++ '=' :: v).length
      omega)
  rw [split_ava]
  rw [show pyRFind (t ++ '=' :: v) '=' ((t ++ '=' :: v).length : Int) =
      pyRFindN (t ++ '=' :: v) '=' (t ++ '=' :: v).length by
    rw [pyRFind, Int.toNat_natCast]]
  rw [hmain]
  rw [hts, hst]
  rfl

/-! ## get_next_ava on reconstructed strings -/

/-- Shifting the start index of `pyFindAux`. -/
theorem pyFindAux_add (c : Char) :
    ∀ (xs : List Char) (i k : Nat),
      pyFindAux c xs (i + k) =
        if pyFindAux c xs k = -1 then -1 else (i : Int) + pyFindAux c xs k := by
  intro xs
  induction xs with
  | nil => intro i k; simp [pyFindAux]
  | cons x r ih =>
    intro i k
    by_cases hx : x = c
    · simp only [pyFindAux, if_pos hx]
      rw [if_neg (by omega)]
      push_cast
      ring
    · simp only [pyFindAux, if_neg hx]
      rw [show i + k + 1 = i + (k + 1) by omega]
      exact ih i (k + 1)

/-- The first occurrence when the leading block lacks the character. -/
theorem pyFind_append_first (A R : List Char) (c : Char) (h : c ∉ A) :
    pyFind (A ++ c :: R) c = (A.length : Int) := by
  rw [pyFind, pyFindAux_append_not_mem c A (c :: R) 0 h, pyFindAux_cons_self]
  simp

/-- Decomposition at the first occurrence of a character. -/
theorem first_occurrence_decomp {c : Char} :
    ∀ l : List Char, c ∈ l → ∃ a b, l = a ++ c :: b ∧ c ∉ a := by
  intro l
  induction l with
  | nil => intro h; cases h
  | cons x r ih =>
    intro h
    by_cases hx : x = c
    · exact ⟨[], r, by simp [hx], by simp⟩
    · obtain ⟨a, b, hab, hna⟩ := ih (by
        rcases List.mem_cons.mp h with h1 | h1
        · exact absurd h1.symm hx
        · exact h1)
      refine ⟨x :: a, b, by rw [hab]; rfl, ?_⟩
      intro hc
      rcases List.mem_cons.mp hc with h1 | h1
      · exact hx h1.symm
      · exact hna h1

/-- A comma separator somewhere in the list puts a comma in the
reconstruction. -/
theorem comma_mem_recon : ∀ l : List Ava, hasCommaSep l → ',' ∈ recon l := by
  intro l
  induction l with
  | nil =>
    intro h
    obtain ⟨x, hx, -⟩ := h
    cases hx
  | cons y r ih =>
    intro h
    obtain ⟨x, hx, hs⟩ := h
    rcases List.mem_cons.mp hx with rfl | hx2
    · simp [recon, List.mem_append, hs]
    · have := ih ⟨x, hx2, hs⟩
      simp [recon, List.mem_append, this]

/-- Dropping the AVA and its separator from the reconstruction. -/
theorem drop_recon (A R : List Char) (s : Char) :
    (A ++ s :: R).drop (A.length + 1) = R := by
  rw [List.drop_append_eq_append_drop]
  simp

/-- A validated attribute type / value pair contains no comma. -/
theorem comma_not_mem_recon_ava (t v : List Char)
    (hvt : validate_attribute_type t = Except.ok true)
    (hcv : ',' ∉ v) : ',' ∉ t ++ '=' :: v := by
  obtain ⟨-, hct, -, -, -, -, -⟩ := type_facts t hvt
  intro h
  rcases List.mem_append.mp h with h1 | h1
  · exact hct h1
  · rcases List.mem_cons.mp h1 with h2 | h2
    · exact absurd h2 (by decide)
    · exact hcv h2

/-- `get_next_ava` on a final reconstructed AVA (no separator). -/
theorem recon_ga_empty (t v : List Char)
    (hvt : validate_attribute_type t = Except.ok true)
    (hcv : ',' ∉ v) :
    get_next_ava (t ++ '=' :: v) = (t ++ '=' :: v, []) := by
  have hcA : ',' ∉ t ++ '=' :: v := comma_not_mem_recon_ava t v hvt hcv
  have hc : pyFind (t ++ '=' :: v) ',' = -1 :=
    (pyFind_eq_neg_one_iff _ _).mpr hcA
  have hp := pyFindAux_ge '+' (t ++ '=' :: v) 0
  rw [get_next_ava]
  rw [if_neg (by
    rw [hc]
    rintro ⟨h1, h2⟩
    rcases hp with h3 | h3
    · rw [pyFind] at h1; omega
    · rw [pyFind] at h2; omega)]
  rw [if_neg (by rw [hc]; omega)]

/-- `get_next_ava` on a reconstructed AVA followed by a comma. -/
theorem recon_ga_comma (t v R : List Char)
    (hvt : validate_attribute_type t = Except.ok true)
    (hcv : ',' ∉ v) (hneq : NoEqAfterPlus v) :
    get_next_ava ((t ++ '=' :: v) ++ ',' :: R) = (t ++ '=' :: v, [',']) := by
  obtain ⟨htne, hct, hpt, het, -, -, -⟩ := type_facts t hvt
  have hcA : ',' ∉ t ++ '=' :: v := comma_not_mem_recon_ava t v hvt hcv
  have hcomma : pyFind ((t ++ '=' :: v) ++ ',' :: R) ',' =
      ((t ++ '=' :: v).length : Int) := pyFind_append_first _ R ',' hcA
  have ht1 : 0 < t.length := List.length_pos.mpr htne
  have hAlen : (t ++ '=' :: v).length = t.length + 1 + v.length := by
    simp
    omega
  by_cases hpv : '+' ∈ v
  · obtain ⟨a, b, hab, hna⟩ := first_occurrence_decomp v hpv
    have hpA : '+' ∉ t ++ '=' :: a := by
      intro h
      rcases List.mem_append.mp h with h1 | h1
      · exact hpt h1
      · rcases List.mem_cons.mp h1 with h2 | h2
        · exact absurd h2 (by decide)
        · exact hna h2
    have hsplit : (t ++ '=' :: v) ++ ',' :: R =
        (t ++ '=' :: a) ++ '+' :: (b ++ ',' :: R) := by
      rw [hab]
      simp [List.append_assoc]
    have hplus : pyFind ((t ++ '=' :: v) ++ ',' :: R) '+' =
        ((t ++ '=' :: a).length : Int) := by
      rw [hsplit]
      exact pyFind_append_first _ _ '+' hpA
    have halen : (t ++ '=' :: a).length = t.length + 1 + a.length := by
      simp
      omega
    have hvlen : v.length = a.length + 1 + b.length := by
      rw [hab]
      simp
      omega
    have hAa : (t ++ '=' :: v) = (t ++ '=' :: a) ++ '+' :: b := by
      rw [hab]
      simp [List.append_assoc]
    have hrange : pyFindRange ((t ++ '=' :: v) ++ ',' :: R) '='
        (pyFind ((t ++ '=' :: v) ++ ',' :: R) '+')
        (pyFind ((t ++ '=' :: v) ++ ',' :: R) ',') = -1 := by
      rw [hplus, hcomma, pyFindRange, Int.toNat_natCast, Int.toNat_natCast,
        List.take_left]
      rw [show (t ++ '=' :: v) = (t ++ '=' :: a) ++ '+' :: b from hAa,
        List.drop_left]
      rw [pyFindAux_eq_neg_one_iff]
      intro h
      rcases List.mem_cons.mp h with h1 | h1
      · exact absurd h1 (by decide)
      · exact hneq a b hab h1
    rw [get_next_ava]
    rw [if_pos (by
      rw [hplus, hcomma]
      constructor
      · omega
      · omega)]
    rw [if_neg (by rw [hrange]; omega)]
    rw [hcomma, Int.toNat_natCast, List.take_left]
  · have hpA : '+' ∉ t ++ '=' :: v := by
      intro h
      rcases List.mem_append.mp h with h1 | h1
      · exact hpt h1
      · rcases List.mem_cons.mp h1 with h2 | h2
        · exact absurd h2 (by decide)
        · exact hpv h2
    have hplus : pyFind ((t ++ '=' :: v) ++ ',' :: R) '+' =
        pyFindAux '+' R ((t ++ '=' :: v).length + 1) := by
      rw [pyFind, pyFindAux_append_not_mem '+' _ _ 0 hpA,
        pyFindAux_cons_ne '+' ',' R _ (by decide)]
      congr 1
      omega
    have hp := pyFindAux_ge '+' R ((t ++ '=' :: v).length + 1)
    rw [get_next_ava]
    rw [if_neg (by
      rw [hplus, hcomma]
      rintro ⟨h1, h2⟩
      rcases hp with h3 | h3
      · omega
      · push_cast at h3
        omega)]
    rw [if_pos (by rw [hcomma]; omega)]
    rw [hcomma, Int.toNat_natCast, List.take_left]

/-- `get_next_ava` on a reconstructed AVA followed by a plus, when another
type/value pair and a later comma follow. -/
theorem recon_ga_plus (t v R t2 R2 : List Char)
    (hvt : validate_attribute_type t = Except.ok true)
    (hcv : ',' ∉ v) (hpv : '+' ∉ v)
    (hvt2 : validate_attribute_type t2 = Except.ok true)
    (hRdef : R = t2 ++ '=' :: R2)
    (hcR : ',' ∈ R) :
    get_next_ava ((t ++ '=' :: v) ++ '+' :: R) =
      (t ++ '=' :: v, ['+']) := by
  obtain ⟨htne, hct, hpt, het, -, -, -⟩ := type_facts t hvt
  obtain ⟨htne2, hct2, -, -, -, -, -⟩ := type_facts t2 hvt2
  have ht1 : 0 < t.length := List.length_pos.mpr htne
  have hA1 : 0 < (t ++ '=' :: v).length := by simp
  have hcA : ',' ∉ t ++ '=' :: v := comma_not_mem_recon_ava t v hvt hcv
  have hpA : '+' ∉ t ++ '=' :: v := by
    intro h
    rcases List.mem_append.mp h with h1 | h1
    · exact hpt h1
    · rcases List.mem_cons.mp h1 with h2 | h2
      · exact absurd h2 (by decide)
      · exact hpv h2
  have hplus : pyFind ((t ++ '=' :: v) ++ '+' :: R) '+' =
      ((t ++ '=' :: v).length : Int) := pyFind_append_first _ R '+' hpA
  -- the first comma of R sits past the second type and its '='
  have hcR2 : ',' ∈ R2 := by
    rw [hRdef] at hcR
    rcases List.mem_append.mp hcR with h1 | h1
    · exact absurd h1 hct2
    · rcases List.mem_cons.mp h1 with h2 | h2
      · exact absurd h2 (by decide)
      · exact h2
  have hfR : pyFind R ',' = pyFindAux ',' R2 (t2.length + 1) := by
    rw [hRdef, pyFind, pyFindAux_append_not_mem ',' t2 _ 0 hct2,
      pyFindAux_cons_ne ',' '=' R2 _ (by decide)]
    congr 1
    omega
  have hfRne : pyFindAux ',' R2 (t2.length + 1) ≠ -1 := by
    simp only [ne_eq, pyFindAux_eq_neg_one_iff]
    simp [hcR2]
  have hfRge : (t2.length : Int) + 1 ≤ pyFindAux ',' R2 (t2.length + 1) := by
    rcases pyFindAux_ge ',' R2 (t2.length + 1) with h | h
    · exact absurd h hfRne
    · push_cast at h
      omega
  have hcomma : pyFind ((t ++ '=' :: v) ++ '+' :: R) ',' =
      ((t ++ '=' :: v).length : Int) + 1 + pyFind R ',' := by
    rw [pyFind, pyFindAux_append_not_mem ',' _ _ 0 hcA,
      pyFindAux_cons_ne ',' '+' R _ (by decide)]
    rw [show 0 + (t ++ '=' :: v).length + 1 =
      ((t ++ '=' :: v).length + 1) + 0 by omega]
    rw [pyFindAux_add ',' R ((t ++ '=' :: v).length + 1) 0]
    rw [if_neg (by rw [← pyFind]; rw [hfR]; exact hfRne)]
    rw [pyFind]
    push_cast
    ring
  have hcRge : (0 : Int) ≤ pyFind R ',' := by
    rw [hfR]
    omega
  have hge2 : t2.length + 1 ≤ (pyFind R ',').toNat := by
    have := hfR
    omega
  -- the slice between '+' and the comma still contains an '='
  have hrange : 0 < pyFindRange ((t ++ '=' :: v) ++ '+' :: R) '='
      (pyFind ((t ++ '=' :: v) ++ '+' :: R) '+')
      (pyFind ((t ++ '=' :: v) ++ '+' :: R) ',') := by
    rw [hplus, hcomma, pyFindRange]
    have htn : (((t ++ '=' :: v).length : Int) + 1 + pyFind R ',').toNat =
        (t ++ '=' :: v).length + (1 + (pyFind R ',').toNat) := by omega
    rw [htn, Int.toNat_natCast, List.take_append]
    rw [show (1 + (pyFind R ',').toNat) = (pyFind R ',').toNat + 1 by omega]
    rw [List.take_succ_cons, List.drop_left]
    have hmem : '=' ∈ '+' :: R.take (pyFind R ',').toNat := by
      have htake : ∀ m : Nat, t2.length + 1 ≤ m →
          R.take m = t2 ++ '=' :: R2.take (m - t2.length - 1) := by
        intro m hm
        rw [hRdef, List.take_append_eq_append_take]
        rw [List.take_of_length_le (by omega)]
        conv_lhs => rw [show m - t2.length = (m - t2.length - 1) + 1 from by
          omega]
        rw [List.take_succ_cons]
      rw [htake _ hge2]
      simp
    rcases pyFindAux_ge '=' ('+' :: R.take (pyFind R ',').toNat)
        (t ++ '=' :: v).length with h2 | h2
    · exact absurd ((pyFindAux_eq_neg_one_iff _ _ _).mp h2) (by simp [hmem])
    · omega
  rw [get_next_ava]
  rw [if_pos (by rw [hplus, hcomma]; omega)]
  rw [if_pos hrange]
  rw [hplus, Int.toNat_natCast, List.take_left]

/-! ## Re-parsing the reconstruction -/

/-- One loop step of `parse_dn` (plain escape, strip on) on a remainder
whose next AVA is a validated reconstruction. -/
theorem parse_dn_loop_recon_step (dn t v : List Char) (sep : List Char)
    (n : Nat) (acc : List Ava)
    (hvt : validate_attribute_type t = Except.ok true)
    (hvv : validate_attribute_value v = Except.ok true)
    (hstrip : pyStrip v = v)
    (hga : get_next_ava dn = (t ++ '=' :: v, sep)) :
    parse_dn_loop (n + 1) dn false true acc =
      parse_dn_loop n (dn.drop ((t ++ '=' :: v).length + 1)) false true
        (acc ++ [(t, AvaValue.str v, sep)]) := by
  rw [parse_dn_loop]
  simp only [hga]
  rw [if_neg (by simp)]
  simp only [split_recon t v hvt hvv hstrip, hvt,
    validate_attribute_value_ava, hvv, Bool.not_true, Bool.false_eq_true,
    reduceIte]

/-- The loop on an empty remaining string returns the accumulator. -/
theorem parse_dn_loop_nil_eval (fuel : Nat) (e s : Bool) (acc : List Ava)
    (h : 0 < fuel) :
    parse_dn_loop fuel [] e s acc = some (Except.ok acc) := by
  cases fuel with
  | zero => omega
  | succ n =>
    rw [parse_dn_loop]
    simp [get_next_ava_nil]

/-- The loop of `parse_dn` accepts every canonical reconstruction and
returns exactly the reconstructed list. -/
theorem recon_parses_loop :
    ∀ l : List Ava, Canon l →
      ∀ (fuel : Nat) (acc : List Ava), (recon l).length < fuel →
        parse_dn_loop fuel (recon l) false true acc =
          some (Except.ok (acc ++ l)) := by
  intro l
  induction l with
  | nil =>
    intro _ fuel acc hfuel
    rw [show recon ([] : List Ava) = [] from rfl]
    rw [parse_dn_loop_nil_eval fuel false true acc
      (by simpa [recon] using hfuel)]
    simp
  | cons x rest ih =>
    obtain ⟨t, av, s⟩ := x
    intro hcanon fuel acc hfuel
    obtain ⟨hmem, hseps⟩ := hcanon
    obtain ⟨v, hav, h1, h2, h3, h4, h5, h6⟩ := hmem (t, av, s) (by simp)
    have hvtx : validate_attribute_type t = Except.ok true := h1
    have hvvx : validate_attribute_value v = Except.ok true := h2
    have hstripx : pyStrip v = v := h3
    have hcvx : ',' ∉ v := h4
    have hneqcx : s = [','] → NoEqAfterPlus v := h5
    have hnppx : s = ['+'] → '+' ∉ v := h6
    have havx : av = AvaValue.str v := hav
    subst havx
    have hA1 : 0 < (t ++ '=' :: v).length := by simp
    cases rest with
    | nil =>
      have hseps2 : s = [] ∨ s = [','] := hseps
      rcases hseps2 with hs | hs <;> subst hs
      · have hw : recon [(t, AvaValue.str v, ([] : List Char))] =
            t ++ '=' :: v := by
          simp [recon, reconVal]
        rw [hw] at hfuel ⊢
        cases fuel with
        | zero => omega
        | succ n =>
          rw [parse_dn_loop_recon_step (t ++ '=' :: v) t v [] n acc hvtx hvvx
            hstripx (recon_ga_empty t v hvtx hcvx)]
          rw [List.drop_eq_nil_iff.mpr (by omega)]
          rw [parse_dn_loop_nil_eval n false true _ (by omega)]
      · have hw : recon [(t, AvaValue.str v, [','])] =
            (t ++ '=' :: v) ++ ',' :: ([] : List Char) := by
          simp [recon, reconVal]
        rw [hw] at hfuel ⊢
        have hlen : ((t ++ '=' :: v) ++ ',' :: ([] : List Char)).length =
            (t ++ '=' :: v).length + 1 := by
          simp
          omega
        cases fuel with
        | zero => omega
        | succ n =>
          rw [parse_dn_loop_recon_step _ t v [','] n acc hvtx hvvx hstripx
            (recon_ga_comma t v [] hvtx hcvx (hneqcx rfl))]
          rw [drop_recon]
          rw [parse_dn_loop_nil_eval n false true _ (by omega)]
    | cons y rest2 =>
      have hcanonrest : Canon (y :: rest2) :=
        ⟨fun z hz => hmem z (by simp [hz]), hseps.2⟩
      rcases hseps.1 with hs | ⟨hs, hcm⟩ <;> subst hs
      · have hw : recon ((t, AvaValue.str v, [',']) :: y :: rest2) =
            (t ++ '=' :: v) ++ ',' :: recon (y :: rest2) := by
          simp [recon, reconVal, List.append_assoc]
        rw [hw] at hfuel ⊢
        have hlen : ((t ++ '=' :: v) ++ ',' :: recon (y :: rest2)).length =
            (t ++ '=' :: v).length + 1 + (recon (y :: rest2)).length := by
          simp
          omega
        cases fuel with
        | zero => omega
        | succ n =>
          rw [parse_dn_loop_recon_step _ t v [','] n acc hvtx hvvx hstripx
            (recon_ga_comma t v (recon (y :: rest2)) hvtx hcvx (hneqcx rfl))]
          rw [drop_recon]
          rw [ih hcanonrest n (acc ++ [(t, AvaValue.str v, [','])])
            (by omega)]
          simp
      · obtain ⟨t2, av2, s2⟩ := y
        obtain ⟨v2, hav2, h7, -, -, -, -, -⟩ := hmem (t2, av2, s2) (by simp)
        have hvty : validate_attribute_type t2 = Except.ok true := h7
        have hav2b : av2 = AvaValue.str v2 := hav2
        subst hav2b
        have hshape : recon ((t2, AvaValue.str v2, s2) :: rest2) =
            t2 ++ '=' :: (v2 ++ (s2 ++ recon rest2)) := by
          simp [recon, reconVal, List.append_assoc]
        have hw : recon ((t, AvaValue.str v, ['+']) :: (t2, AvaValue.str v2, s2)
              :: rest2) =
            (t ++ '=' :: v) ++ '+' :: recon ((t2, AvaValue.str v2, s2)
              :: rest2) := by
          simp [recon, reconVal, List.append_assoc]
        rw [hw] at hfuel ⊢
        have hlen : ((t ++ '=' :: v) ++
            '+' :: recon ((t2, AvaValue.str v2, s2) :: rest2)).length =
            (t ++ '=' :: v).length + 1 +
              (recon ((t2, AvaValue.str v2, s2) :: rest2)).length := by
          simp
          omega
        cases fuel with
        | zero => omega
        | succ n =>
          rw [parse_dn_loop_recon_step _ t v ['+'] n acc hvtx hvvx hstripx
            (recon_ga_plus t v (recon ((t2, AvaValue.str v2, s2) :: rest2)) t2
              (v2 ++ (s2 ++ recon rest2)) hvtx hcvx (hnppx rfl) hvty hshape
              (comma_mem_recon _ hcm))]
          rw [drop_recon]
          rw [ih hcanonrest n (acc ++ [(t, AvaValue.str v, ['+'])])
            (by omega)]
          simp

/-- The reconstruction of a canonical list re-parses to that list. -/
theorem recon_parses (l : List Ava) (h : Canon l) :
    parse_dn (recon l) false true = Except.ok l := by
  rw [parse_dn_eq_ok_iff]
  have h2 := recon_parses_loop l h ((recon l).length + 1) []
    (Nat.lt_succ_self _)
  simpa using h2

/-- C2: round trip of `safe_dn`: for every DN `d` accepted by `parse_dn`
(with result `l`), `safe_dn d` succeeds with an output `w`; `w` is again
accepted by `parse_dn` (with the same result `l`); and `safe_dn` is
idempotent on such inputs: `safe_dn w = Except.ok w`, i.e.
`safe_dn (safe_dn d) = safe_dn d`. -/
theorem claim_C2 (d : List Char) (l : List Ava)
    (h : parse_dn d false true = Except.ok l) :
    ∃ w, safe_dn d = Except.ok w ∧ parse_dn w false true = Except.ok l ∧
      safe_dn w = Except.ok w := by
  have hcanon := parse_canon d l h
  have hstr : ∀ x ∈ l, ∃ v, x.2.1 = AvaValue.str v := by
    intro x hx
    obtain ⟨v, hv, -⟩ := hcanon.1 x hx
    exact ⟨v, hv⟩
  have h2 : parse_dn d true true = Except.ok l := parse_dn_escape_agree d l h
  have hsafe : safe_dn d = Except.ok (recon l) := safe_dn_eq_recon d l h2 hstr
  have hrecon : parse_dn (recon l) false true = Except.ok l :=
    recon_parses l hcanon
  have h3 : parse_dn (recon l) true true = Except.ok l :=
    parse_dn_escape_agree _ l hrecon
  have hsafe2 : safe_dn (recon l) = Except.ok (recon l) :=
    safe_dn_eq_recon _ l h3 hstr
  exact ⟨recon l, hsafe, hrecon, hsafe2⟩

/-- Witness for C2 at the input `"cn=a"`. -/
theorem claim_C2_witness :
    ∃ w, safe_dn ['c', 'n', '=', 'a'] = Except.ok w ∧
      parse_dn w false true =
        Except.ok [(['c', 'n'], AvaValue.str ['a'], [])] ∧
      safe_dn w = Except.ok w :=
  claim_C2 ['c', 'n', '=', 'a'] [(['c', 'n'], AvaValue.str ['a'], [])]
    (by rfl)

end Ldap3Dn
